import Mathlib

/-!
Verification of the QI price-history pipeline of the quaiqi-dashboard
repository, as a shallow embedding in Lean.

Conventions of the embedding:
* JavaScript `bigint` values are modelled as `ℤ`, block heights and
  millisecond timestamps as `ℤ`, and JavaScript `number` arithmetic on
  prices as exact rational arithmetic on `ℚ` (float64 rounding is not
  modelled; every concrete input used in a theorem below was chosen so
  that the float computation is exact or its compared sign is robust).
* Network calls (`fetch`) are modelled as explicit oracle functions
  passed to the embedded definitions; the block cache is threaded as an
  explicit association list.
* Each definition carries the name of the source function it embeds,
  from `src/services/cryptoApi.ts` and `src/services/qiHistoryServer.ts`.
-/

/-! ### Character and string helpers (JS primitives used by the source) -/

/-- Whitespace test used by the embedded `trim` / numeric parsers. -/
def isJsWhitespace (c : Char) : Bool :=
  c = ' ' ∨ c = '\t' ∨ c = '\n' ∨ c = '\r'

/-- Embeds JavaScript `String.prototype.trim` on a character list. -/
def jsTrimChars (cs : List Char) : List Char :=
  ((cs.dropWhile isJsWhitespace).reverse.dropWhile isJsWhitespace).reverse

/-- Value of a hexadecimal digit character, `none` when not a hex digit. -/
def hexDigitValue (c : Char) : Option ℕ :=
  if '0' ≤ c ∧ c ≤ '9' then some (c.toNat - '0'.toNat)
  else if 'a' ≤ c ∧ c ≤ 'f' then some (c.toNat - 'a'.toNat + 10)
  else if 'A' ≤ c ∧ c ≤ 'F' then some (c.toNat - 'A'.toNat + 10)
  else none

/-- Value of a decimal digit character, `none` when not a decimal digit. -/
def decDigitValue (c : Char) : Option ℕ :=
  if '0' ≤ c ∧ c ≤ '9' then some (c.toNat - '0'.toNat) else none

/-- Folds a digit list into a natural number for the given base, requiring
every character to be a digit and at least one digit to be present. -/
def digitsToNat (digitValue : Char → Option ℕ) (base : ℕ) : List Char → ℕ → Option ℕ
  | [], acc => some acc
  | c :: rest, acc =>
    match digitValue c with
    | some d => digitsToNat digitValue base rest (acc * base + d)
    | none => none

/-- Parses a non-empty all-digit string in the given base. -/
def parseAllDigits (digitValue : Char → Option ℕ) (base : ℕ) (cs : List Char) : Option ℕ :=
  if cs.isEmpty then none else digitsToNat digitValue base cs 0

/-- Lower-case hex digit character for a value `< 16`, as produced by
JavaScript `BigInt.prototype.toString(16)`. -/
def hexDigitChar (d : ℕ) : Char :=
  if d < 10 then Char.ofNat (48 + d) else Char.ofNat (87 + d)

/-- Hex digit list of a natural number (most significant first), fuel-indexed
so that it is structurally recursive; `natHexChars` supplies enough fuel. -/
def natHexCharsAux : ℕ → ℕ → List Char
  | 0, _ => []
  | fuel + 1, n =>
    if n < 16 then [hexDigitChar n]
    else natHexCharsAux fuel (n / 16) ++ [hexDigitChar (n % 16)]

/-- Hex digit list of a natural number, no leading zeros (`"0"` for zero).
Embeds JavaScript `n.toString(16)` for non-negative bigints. -/
def natHexChars (n : ℕ) : List Char :=
  natHexCharsAux (n + 1) n

/-- Embeds the template `` `0x${n.toString(16)}` `` of the source
(`formatBlockHex` in cryptoApi.ts and the returns of `normalizeBlockParam`). -/
def natToHex0x (n : ℕ) : String :=
  String.mk ('0' :: 'x' :: natHexChars n)

/-- Decimal digit character for a value `< 10`. -/
def decDigitChar (d : ℕ) : Char :=
  Char.ofNat (48 + d)

/-- Decimal digit list of a natural number, fuel-indexed. -/
def natDecCharsAux : ℕ → ℕ → List Char
  | 0, _ => []
  | fuel + 1, n =>
    if n < 10 then [decDigitChar n]
    else natDecCharsAux fuel (n / 10) ++ [decDigitChar (n % 10)]

/-- Embeds JavaScript `n.toString()` (decimal) for a bigint. -/
def intDecString (n : ℤ) : String :=
  if n < 0 then String.mk ('-' :: natDecCharsAux (n.natAbs + 1) n.natAbs)
  else String.mk (natDecCharsAux (n.natAbs + 1) n.natAbs)

/-- Embeds the JavaScript `BigInt(string)` constructor: trims whitespace,
accepts the empty remainder as zero, a `0x`/`0o`/`0b` prefixed unsigned
literal, or an optionally signed decimal literal; `none` models the thrown
`SyntaxError` for anything else. -/
def jsBigIntOfString (s : String) : Option ℤ :=
  let cs := jsTrimChars s.data
  match cs with
  | [] => some 0
  | '0' :: 'x' :: rest => (parseAllDigits hexDigitValue 16 rest).map Int.ofNat
  | '0' :: 'X' :: rest => (parseAllDigits hexDigitValue 16 rest).map Int.ofNat
  | '0' :: 'o' :: rest =>
    (parseAllDigits (fun c => if '0' ≤ c ∧ c ≤ '7' then some (c.toNat - '0'.toNat) else none)
      8 rest).map Int.ofNat
  | '0' :: 'b' :: rest =>
    (parseAllDigits (fun c => if c = '0' ∨ c = '1' then some (c.toNat - '0'.toNat) else none)
      2 rest).map Int.ofNat
  | '-' :: rest => (parseAllDigits decDigitValue 10 rest).map (fun n => -(n : ℤ))
  | '+' :: rest => (parseAllDigits decDigitValue 10 rest).map Int.ofNat
  | rest => (parseAllDigits decDigitValue 10 rest).map Int.ofNat

/-- Embeds JavaScript `Number.parseInt(s, 16)`: skips leading whitespace,
reads an optional sign and an optional `0x`/`0X` prefix, then the maximal
run of hex digits; `none` models the `NaN` result when no digit follows.
The JS value is a float64 and loses precision above `2^53`; the embedding
keeps the exact integer. -/
def jsParseInt16 (s : String) : Option ℤ :=
  let cs := s.data.dropWhile isJsWhitespace
  let signAndRest : ℤ × List Char :=
    match cs with
    | '-' :: rest => (-1, rest)
    | '+' :: rest => (1, rest)
    | rest => (1, rest)
  let body : List Char :=
    match signAndRest.2 with
    | '0' :: 'x' :: rest => rest
    | '0' :: 'X' :: rest => rest
    | rest => rest
  let digits := body.takeWhile (fun c => (hexDigitValue c).isSome)
  if digits.isEmpty then none
  else (digitsToNat hexDigitValue 16 digits 0).map (fun n => signAndRest.1 * n)

/-- Embeds JavaScript `s.toLowerCase()` (ASCII case, as used on block tags
and hex strings in the source). -/
def jsToLower (s : String) : String :=
  String.mk (s.data.map Char.toLower)

/-! ### Block references and `normalizeBlockParam` (cryptoApi.ts:55-91) -/

/-- A scalar element of the block-reference union type
`string | number | bigint | null | undefined` accepted by
`normalizeBlockParam`; `null` also stands for `undefined`. -/
inductive BlockRefElem where
  | null : BlockRefElem
  | num : ℤ → BlockRefElem
  | big : ℤ → BlockRefElem
  | str : String → BlockRefElem
deriving DecidableEq, Repr

/-- The full argument type of `normalizeBlockParam`, which additionally
accepts an array of scalar references. JS `number` arguments are modelled
as integers (the source only ever passes integral numbers). -/
inductive BlockRef where
  | null : BlockRef
  | num : ℤ → BlockRef
  | big : ℤ → BlockRef
  | str : String → BlockRef
  | arr : List BlockRefElem → BlockRef
deriving DecidableEq, Repr

/-- The five symbolic block tags recognised by `normalizeBlockParam`. -/
def blockTagList : List String :=
  ["latest", "earliest", "pending", "safe", "finalized"]

/-- Whether a character list starts with `0x` (the source tests
`lowered.length >= 2 && lowered[0] === "0" && lowered[1] === "x"`). -/
def isHex0xChars : List Char → Bool
  | '0' :: 'x' :: _ => true
  | _ => false

/-- Whether a string starts with `0x`. -/
def isHex0xString (s : String) : Bool :=
  isHex0xChars s.data

/-- Embeds `normalizeBlockParam` (cryptoApi.ts:55-91) on scalar input.
`Except.error` models the two thrown errors. The string branch mirrors the
source: the empty (after trim) string maps to `"latest"`; a known tag is
returned lower-cased; a `0x`-prefixed string has `0x` and leading zeros
stripped and is returned with a `0x` prefix without any digit validation;
any other string goes through `BigInt(block)` with negative results and
parse failures both surfacing as `Invalid block identifier`. -/
def normalizeScalar : BlockRefElem → Except String String
  | .null => .ok "latest"
  | .str s =>
    if (jsTrimChars s.data).isEmpty then .ok "latest"
    else
      let lowered := jsToLower s
      if lowered ∈ blockTagList then .ok lowered
      else if isHex0xChars lowered.data then
        let stripped := (lowered.data.drop 2).dropWhile (fun c => c = '0')
        if stripped.isEmpty then .ok "0x0"
        else .ok (String.mk ('0' :: 'x' :: stripped))
      else
        match jsBigIntOfString s with
        | some v =>
          if v < 0 then .error ("Invalid block identifier: " ++ s)
          else .ok (natToHex0x v.toNat)
        | none => .error ("Invalid block identifier: " ++ s)
  | .num n =>
    -- the source computes `BigInt(Math.max(0, block))`, so a negative JS
    -- number is clamped to zero before the negativity check
    let asBigInt : ℤ := max 0 n
    if asBigInt < 0 then .error "Block number cannot be negative"
    else .ok (natToHex0x asBigInt.toNat)
  | .big n =>
    if n < 0 then .error "Block number cannot be negative"
    else .ok (natToHex0x n.toNat)

/-- Embeds `normalizeBlockParam` including the array branch, which recurses
on the first non-null element (or `"latest"` when there is none). -/
def normalizeBlockParam : BlockRef → Except String String
  | .null => normalizeScalar .null
  | .num n => normalizeScalar (.num n)
  | .big n => normalizeScalar (.big n)
  | .str s => normalizeScalar (.str s)
  | .arr l => normalizeScalar ((l.find? (fun e => e ≠ .null)).getD (.str "latest"))

/-! ### Pipeline data model (qiHistoryServer.ts) -/

/-- Block metadata `{ number: bigint, timestampMs: number }` produced by
`fetchBlockInfo` (cryptoApi.ts:46-49). -/
structure BlockInfo where
  number : ℤ
  timestampMs : ℤ
deriving DecidableEq, Repr

/-- An exchange-rate snapshot (`QiToQuaiSnapshot`, cryptoApi.ts:241-247).
The derived display string `isoTimestamp` is omitted: it is never read by
the pipeline. `blockNumber` keeps the numeric height whose decimal string
the source stores. -/
structure Snapshot where
  blockNumber : ℤ
  blockNumberHex : String
  timestamp : ℤ
  rate : String
deriving DecidableEq, Repr

/-- A point of the served history (`QiPriceHistoryPoint`,
qiHistoryServer.ts:46-50), with the float64 price modelled as `ℚ`. -/
structure QiPoint where
  timestamp : ℤ
  price : ℚ
  blockNumberHex : String
deriving DecidableEq, Repr

instance : Inhabited QiPoint := ⟨⟨0, 0, ""⟩⟩

/-- The range tokens of `QI_HISTORY_RANGE_CONFIG` (qiHistoryServer.ts:7-13). -/
inductive QiHistoryRange where
  | h1 | h24 | d7 | d30 | m6
deriving DecidableEq, Repr

/-- `QI_HISTORY_RANGE_CONFIG[range].samples` (qiHistoryServer.ts:7-13). -/
def rangeSamples : QiHistoryRange → ℕ
  | .h1 => 240
  | .h24 => 288
  | .d7 => 336
  | .d30 => 180
  | .m6 => 186

/-- `RANGE_BUCKET_MS` (qiHistoryServer.ts:15-21). -/
def rangeBucketMs : QiHistoryRange → ℤ
  | .h1 => 30 * 1000
  | .h24 => 60 * 1000
  | .d7 => 10 * 60 * 1000
  | .d30 => 6 * 60 * 60 * 1000
  | .m6 => 24 * 60 * 60 * 1000

/-- `RANGE_SMOOTHING_WINDOW` (qiHistoryServer.ts:23-28); `none` for `6m`. -/
def rangeSmoothingWindow : QiHistoryRange → Option ℕ
  | .h1 => some 5
  | .h24 => some 9
  | .d7 => some 17
  | .d30 => some 9
  | .m6 => none

/-- `RANGE_SMOOTHING_ALPHA` (qiHistoryServer.ts:30-35); `none` for `6m`. -/
def rangeSmoothingAlpha : QiHistoryRange → Option ℚ
  | .h1 => some (35 / 100)
  | .h24 => some (20 / 100)
  | .d7 => some (14 / 100)
  | .d30 => some (12 / 100)
  | .m6 => none

/-- `RANGE_DENSIFY_SEGMENTS` (qiHistoryServer.ts:37-42); `none` for `6m`. -/
def rangeDensifySegments : QiHistoryRange → Option ℕ
  | .h1 => some 4
  | .h24 => some 8
  | .d7 => some 6
  | .d30 => some 2
  | .m6 => none

/-- `normalizeSamples` (qiHistoryServer.ts:116-118):
`Math.max(2, Math.min(required, 500))`. -/
def normalizeSamples (required : ℕ) : ℕ :=
  max 2 (min required 500)

/-! ### Price Converter (qiHistoryServer.ts:152-169) -/

/-- The conversion loop over snapshots: deduplicates by exact timestamp via
the `seen` set (added before the rate checks, exactly as in the source),
parses the rate hex with `parseInt(rate, 16)`, divides by `1e18`, discards
non-finite (here: unparseable) and non-positive rates, and multiplies by
the QUAI/USD reference price. -/
def convertLoop (quaiUsdPrice : ℚ) : List ℤ → List Snapshot → List QiPoint
  | _, [] => []
  | seen, s :: rest =>
    if s.timestamp ∈ seen then convertLoop quaiUsdPrice seen rest
    else
      let seen2 := s.timestamp :: seen
      match jsParseInt16 s.rate with
      | none => convertLoop quaiUsdPrice seen2 rest
      | some rateNum =>
        let rateDecimal : ℚ := (rateNum : ℚ) / (10 ^ 18 : ℚ)
        if rateDecimal ≤ 0 then convertLoop quaiUsdPrice seen2 rest
        else
          { timestamp := s.timestamp
            price := rateDecimal * quaiUsdPrice
            blockNumberHex := s.blockNumberHex } :: convertLoop quaiUsdPrice seen2 rest

/-- Converter entry point with an empty `seen` set. -/
def convertSnapshots (snapshots : List Snapshot) (quaiUsdPrice : ℚ) : List QiPoint :=
  convertLoop quaiUsdPrice [] snapshots

/-- Embeds `points.sort((a, b) => a.timestamp - b.timestamp)`
(qiHistoryServer.ts:171). The JS sort is stable; after deduplication the
timestamps are distinct, so any comparison sort produces the same list and
a stable insertion sort is a faithful model. -/
def sortByTimestamp (pts : List QiPoint) : List QiPoint :=
  List.insertionSort (fun a b => a.timestamp ≤ b.timestamp) pts

/-! ### Temporal Aggregator (qiHistoryServer.ts:173-205) -/

/-- The mutable accumulator `currentBucket` of the bucketing loop. -/
structure BucketState where
  key : ℤ
  sum : ℚ
  count : ℕ
  lastTimestamp : ℤ
  lastBlock : String
deriving DecidableEq, Repr

/-- `Math.floor(point.timestamp / bucketSize) * bucketSize`
(qiHistoryServer.ts:188). Lean's `/` on `ℤ` rounds toward negative
infinity for a positive divisor, matching `Math.floor` of the float
division. -/
def bucketKey (bucketSize : ℤ) (t : ℤ) : ℤ :=
  (t / bucketSize) * bucketSize

/-- `flushBucket` (qiHistoryServer.ts:177-185): emits the mean-price point
of the current bucket, or nothing when there is no bucket (the
`count === 0` guard is kept from the source although counts are always
positive). -/
def flushBucket : Option BucketState → List QiPoint
  | none => []
  | some b =>
    if b.count = 0 then []
    else [{ timestamp := b.lastTimestamp
            price := b.sum / (b.count : ℚ)
            blockNumberHex := b.lastBlock }]

/-- Fresh bucket for a point (qiHistoryServer.ts:191-197). -/
def newBucket (bs : ℤ) (p : QiPoint) : BucketState :=
  { key := bucketKey bs p.timestamp
    sum := p.price
    count := 1
    lastTimestamp := p.timestamp
    lastBlock := p.blockNumberHex }

/-- Absorbing one more point into the current bucket
(qiHistoryServer.ts:199-202). -/
def addToBucket (b : BucketState) (p : QiPoint) : BucketState :=
  { b with
    sum := b.sum + p.price
    count := b.count + 1
    lastTimestamp := p.timestamp
    lastBlock := p.blockNumberHex }

/-- The single-pass bucketing loop (qiHistoryServer.ts:187-205): flushes
the current bucket whenever the incoming point's bucket key differs. -/
def bucketLoop (bs : ℤ) : Option BucketState → List QiPoint → List QiPoint
  | cur, [] => flushBucket cur
  | cur, p :: rest =>
    match cur with
    | none => bucketLoop bs (some (newBucket bs p)) rest
    | some b =>
      if bucketKey bs p.timestamp = b.key then
        bucketLoop bs (some (addToBucket b p)) rest
      else
        flushBucket (some b) ++ bucketLoop bs (some (newBucket bs p)) rest

/-- Bucketing entry point. -/
def bucketPoints (bs : ℤ) (pts : List QiPoint) : List QiPoint :=
  bucketLoop bs none pts

/-! ### Denoiser (`smoothPoints`, qiHistoryServer.ts:241-284) -/

/-- The symmetric moving-average price at index `i`
(qiHistoryServer.ts:250-262): averages the prices at the in-range indices
of `[i - halfWindow, i + halfWindow]`, dividing by `Math.max(1, count)`. -/
def movingAveragePrice (pts : List QiPoint) (halfWindow : ℕ) (i : ℕ) : ℚ :=
  let idxs := (List.range pts.length).filter
    (fun (j : ℕ) => (i : ℤ) - (halfWindow : ℤ) ≤ (j : ℤ) ∧ (j : ℤ) ≤ (i : ℤ) + (halfWindow : ℤ))
  let total := (idxs.map (fun j => (pts.getD j default).price)).sum
  total / ((max 1 idxs.length : ℕ) : ℚ)

/-- Index-carrying rebuild of the moving-averaged list
(qiHistoryServer.ts:248-263): each point keeps its timestamp and block and
receives the window-averaged price. -/
def movingAverageLoop (pts : List QiPoint) (halfWindow : ℕ) : ℕ → List QiPoint → List QiPoint
  | _, [] => []
  | i, p :: rest =>
    { p with price := movingAveragePrice pts halfWindow i }
      :: movingAverageLoop pts halfWindow (i + 1) rest

/-- Exponential smoothing pass (qiHistoryServer.ts:270-281):
`smoothed = alpha * price + (1 - alpha) * prev`. -/
def emaLoop (alpha : ℚ) : ℚ → List QiPoint → List QiPoint
  | _, [] => []
  | prev, p :: rest =>
    let smoothedPrice := alpha * p.price + (1 - alpha) * prev
    { p with price := smoothedPrice } :: emaLoop alpha smoothedPrice rest

/-- `smoothPoints` (qiHistoryServer.ts:241-284): moving average when a
window is configured and the series is long enough, then exponential
smoothing when a valid `alpha` is configured. -/
def smoothPoints (range : QiHistoryRange) (pts : List QiPoint) : List QiPoint :=
  match rangeSmoothingWindow range with
  | none => pts
  | some windowSize =>
    if windowSize ≤ 1 ∨ pts.length ≤ windowSize then pts
    else
      let movingAveraged := movingAverageLoop pts (windowSize / 2) 0 pts
      match rangeSmoothingAlpha range with
      | none => movingAveraged
      | some alpha =>
        if alpha ≤ 0 ∨ 1 ≤ alpha then movingAveraged
        else emaLoop alpha (movingAveraged.headD default).price movingAveraged

/-! ### Resampler (qiHistoryServer.ts:209-220 and 226-237) -/

/-- Ceiling division on naturals, embedding
`Math.ceil(workingPoints.length / samples)`. -/
def ceilDivNat (a b : ℕ) : ℕ :=
  (a + b - 1) / b

/-- The stride-selection loop `for (i = 0; i < length; i += stride)`:
the counter argument is the number of elements left to skip before the
next selection. -/
def takeEveryAux (stride : ℕ) : ℕ → List QiPoint → List QiPoint
  | _, [] => []
  | 0, p :: rest => p :: takeEveryAux stride (stride - 1) rest
  | skip + 1, _ :: rest => takeEveryAux stride skip rest

/-- Every `stride`-th element starting at index 0. -/
def takeEvery (stride : ℕ) (pts : List QiPoint) : List QiPoint :=
  takeEveryAux stride 0 pts

/-- One fixed-stride decimation stage (qiHistoryServer.ts:209-220, repeated
at 226-237): active only above `target` elements; always force-appends the
final original point when the stride selection ended elsewhere (compared
by timestamp, as in the source). -/
def resamplePoints (target : ℕ) (pts : List QiPoint) : List QiPoint :=
  if target < pts.length then
    let stride := ceilDivNat pts.length target
    let reduced := takeEvery stride pts
    let lastPoint := pts.getLastD default
    if reduced = [] ∨ (reduced.getLastD default).timestamp ≠ lastPoint.timestamp then
      reduced ++ [lastPoint]
    else reduced
  else pts

/-! ### Densifier (qiHistoryServer.ts:286-368) -/

/-- `clamp` (qiHistoryServer.ts:286-293). The `Number.isFinite` fallback
branch cannot fire in the exact rational model and is omitted. -/
def clamp (value minv maxv : ℚ) : ℚ :=
  if value < minv then minv
  else if maxv < value then maxv
  else value

/-- `catmullRom` (qiHistoryServer.ts:295-304). -/
def catmullRom (y0 y1 y2 y3 t : ℚ) : ℚ :=
  let t2 := t * t
  let t3 := t2 * t
  (1 / 2) * ((2 * y1) + (-y0 + y2) * t
    + (2 * y0 - 5 * y1 + 4 * y2 - y3) * t2
    + (-y0 + 3 * y1 - 3 * y2 + y3) * t3)

/-- JavaScript `Math.round`: half-up rounding, `⌊q + 1/2⌋`. -/
def jsRound (q : ℚ) : ℤ :=
  ⌊q + 1 / 2⌋

/-- `lastTimestamp` starts at `Number.NEGATIVE_INFINITY`
(qiHistoryServer.ts:313); `none` models that initial value. -/
def tsLt : Option ℤ → ℤ → Bool
  | none, _ => true
  | some a, b => a < b

/-- The inner interpolation loop `for (s = 1; s < segments; s++)`
(qiHistoryServer.ts:339-360). `left` counts the remaining iterations,
`s` is the loop variable; returns the emitted points and the updated
`lastTimestamp`. -/
def interpGo (segments : ℕ) (prevPrice curPrice nextPrice nextNextPrice : ℚ)
    (curTs : ℤ) (curBlock : String) (deltaTime : ℤ) (guardLo guardHi : ℚ) :
    ℕ → ℕ → Option ℤ → List QiPoint × Option ℤ
  | 0, _, lastTs => ([], lastTs)
  | left + 1, s, lastTs =>
    let tFrac : ℚ := (s : ℚ) / (segments : ℚ)
    let ts := curTs + jsRound ((deltaTime : ℚ) * tFrac)
    if tsLt lastTs ts then
      let interpolated := catmullRom prevPrice curPrice nextPrice nextNextPrice tFrac
      let point : QiPoint :=
        { timestamp := ts
          price := clamp interpolated (min guardLo guardHi) (max guardLo guardHi)
          blockNumberHex := curBlock }
      let tail := interpGo segments prevPrice curPrice nextPrice nextNextPrice curTs curBlock
        deltaTime guardLo guardHi left (s + 1) (some ts)
      (point :: tail.1, tail.2)
    else
      interpGo segments prevPrice curPrice nextPrice nextNextPrice curTs curBlock
        deltaTime guardLo guardHi left (s + 1) lastTs

/-- The outer densify loop `for (i = 0; i < points.length - 1; i++)`
(qiHistoryServer.ts:315-361). `prev` carries `points[i-1] ?? points[i]`;
`lastTs` carries `lastTimestamp`. -/
def densifyLoop (segments : ℕ) : QiPoint → Option ℤ → List QiPoint → List QiPoint
  | _, _, [] => []
  | _, _, [_] => []
  | prev, lastTs, current :: next :: rest =>
    let nextNext := rest.headD next
    let emittedCur : List QiPoint × Option ℤ :=
      if tsLt lastTs current.timestamp then ([current], some current.timestamp)
      else ([], lastTs)
    let deltaTime := next.timestamp - current.timestamp
    if deltaTime ≤ 0 then
      emittedCur.1 ++ densifyLoop segments current emittedCur.2 (next :: rest)
    else
      let localMin := min current.price next.price
      let localMax := max current.price next.price
      let localRange :=
        if localMax - localMin = 0 then
          max (1 / 10 ^ 12) (max |current.price| |next.price| * (1 / 10 ^ 3))
        else localMax - localMin
      let guardMin := localMin - localRange * (35 / 100)
      let guardMax := localMax + localRange * (35 / 100)
      let inner := interpGo segments prev.price current.price next.price nextNext.price
        current.timestamp current.blockNumberHex deltaTime guardMin guardMax
        (segments - 1) 1 emittedCur.2
      emittedCur.1 ++ inner.1 ++ densifyLoop segments current inner.2 (next :: rest)

/-- `densifyPoints` (qiHistoryServer.ts:306-368). -/
def densifyPoints (range : QiHistoryRange) (pts : List QiPoint) : List QiPoint :=
  match rangeDensifySegments range with
  | none => pts
  | some segments =>
    if segments ≤ 1 ∨ pts.length < 2 then pts
    else
      let result := densifyLoop segments (pts.headD default) none pts
      let lastPoint := pts.getLastD default
      if result = [] ∨ (result.getLastD default).timestamp < lastPoint.timestamp then
        result ++ [lastPoint]
      else result

/-! ### The pipeline (`fetchQiPriceHistoryFromRpc`, qiHistoryServer.ts:120-240)

Lines 120-151 perform the network phase: locating the start block, fetching
`snapshots` (via `fetchQiToQuaiSnapshots`) and the USD reference price.
The embedding takes the fetched `snapshots` and `quaiUsdPrice` as
parameters and embeds the pure post-processing of lines 147-239, which is
what claims about the output sequence quantify over. -/

/-- The post-fetch pipeline of `fetchQiPriceHistoryFromRpc`: convert,
sort, bucket, smooth, first decimation to `samples`, densify, second
decimation to `samples * densifyFactor`. -/
def fetchQiPriceHistoryFromRpc (range : QiHistoryRange) (snapshots : List Snapshot)
    (quaiUsdPrice : ℚ) : List QiPoint :=
  if snapshots.isEmpty then []
  else
    let samples := normalizeSamples (rangeSamples range)
    let points := sortByTimestamp (convertSnapshots snapshots quaiUsdPrice)
    let bucketed := bucketPoints (rangeBucketMs range) points
    let working1 := smoothPoints range bucketed
    let working2 := resamplePoints samples working1
    let densifyFactor := (rangeDensifySegments range).getD 1
    let working3 := densifyPoints range working2
    resamplePoints (samples * densifyFactor) working3

/-- Decidable equality for the result type of `normalizeBlockParam`,
so that concrete runs can be checked by `decide`. -/
instance : DecidableEq (Except String String) := fun a b =>
  match a, b with
  | .ok x, .ok y =>
    if h : x = y then isTrue (by rw [h]) else isFalse (by intro hc; cases hc; exact h rfl)
  | .error x, .error y =>
    if h : x = y then isTrue (by rw [h]) else isFalse (by intro hc; cases hc; exact h rfl)
  | .ok _, .error _ => isFalse (by intro hc; cases hc)
  | .error _, .ok _ => isFalse (by intro hc; cases hc)

/-- The concrete snapshot list used to exhibit a non-positive densified
price: with a unit USD reference price the converted prices are
1000, 1, 10, 10 at four distinct 6-hour buckets of the `30d` range. -/
def guardBandSnaps : List Snapshot :=
  [ ⟨1, "0x1", 0, "0x3635c9adc5dea00000"⟩,
    ⟨2, "0x2", 21600000, "0x0de0b6b3a7640000"⟩,
    ⟨3, "0x3", 43200000, "0x8ac7230489e80000"⟩,
    ⟨4, "0x4", 64800000, "0x8ac7230489e80000"⟩ ]

/-- Timestamp list of a series. -/
def tsList (l : List QiPoint) : List ℤ :=
  l.map (fun p => p.timestamp)

/-- Strict chronological ascent by `timestampMs`: every pair of points in
list order has strictly increasing timestamps (hence no duplicates). -/
def StrictTs (l : List QiPoint) : Prop :=
  l.Pairwise (fun a b => a.timestamp < b.timestamp)

/-- Weak chronological ascent by `timestampMs`. -/
def SortedTs (l : List QiPoint) : Prop :=
  l.Pairwise (fun a b => a.timestamp ≤ b.timestamp)

/-- The per-range output cap of the pipeline: the normalized sample count
times the densify factor (`maxSamples` at qiHistoryServer.ts:225, with
densify factor 1 for ranges that do not densify). -/
def rangeOutputCap (range : QiHistoryRange) : ℕ :=
  normalizeSamples (rangeSamples range) * ((rangeDensifySegments range).getD 1)

/-- The guard band floor passed to `clamp` for one pair of points. -/
def pairGuardMin (current next : QiPoint) : ℚ :=
  let localMin := min current.price next.price
  let localMax := max current.price next.price
  let localRange :=
    if localMax - localMin = 0 then
      max (1 / 10 ^ 12) (max |current.price| |next.price| * (1 / 10 ^ 3))
    else localMax - localMin
  localMin - localRange * (35 / 100)

/-- The guard band ceiling passed to `clamp` for one pair of points. -/
def pairGuardMax (current next : QiPoint) : ℚ :=
  let localMin := min current.price next.price
  let localMax := max current.price next.price
  let localRange :=
    if localMax - localMin = 0 then
      max (1 / 10 ^ 12) (max |current.price| |next.price| * (1 / 10 ^ 3))
    else localMax - localMin
  localMax + localRange * (35 / 100)

/-- Folding a run of points into the current bucket, as the bucket loop
does point by point. -/
def bucketAbsorb (b : BucketState) (l : List QiPoint) : BucketState :=
  l.foldl addToBucket b

/-- Two points falling in the same 10 ms bucket, used as the concrete
witness input for the bucketing claim. -/
def claim7WitnessPts : List QiPoint :=
  [⟨0, 1, "0x1"⟩, ⟨5, 3, "0x2"⟩]

/-! ### Block Locator (`findBlockAtOrBeforeTimestamp`, qiHistoryServer.ts:52-114)

The network is modelled by an oracle `fetch : ℤ → Option BlockInfo` standing
for `fetchBlockInfo` on a numeric height (`none` models both a missing
block and a failed fetch), and the result of `fetchBlockInfo("latest")` is
passed separately. Each embedded loop also returns the trace of probed
heights, paired with whether the probe succeeded, so that the claim about
aborting on a failed probe can be stated. The exponential back-off loop of
the source does not structurally terminate against an arbitrary oracle (an
adversarial oracle can keep the loop alive), so it takes explicit fuel;
the fuel-exhausted result mirrors the failed-probe result and is never hit
in the concrete runs below. -/

/-- The exponential back-off phase (qiHistoryServer.ts:60-87): probes
`high.number - step`, doubling `step`, until a probed timestamp is at or
before the target or height 0 is reached; a failed probe breaks with no
low bound. Returns `(lowInfo?, highInfo, trace)`. -/
def backoffLoop (fetch : ℤ → Option BlockInfo) (targetMs : ℤ) :
    ℕ → BlockInfo → ℤ → Option BlockInfo × BlockInfo × List (ℤ × Bool)
  | 0, highInfo, _ => (none, highInfo, [])
  | fuel + 1, highInfo, step =>
    if highInfo.number = 0 then (some highInfo, highInfo, [])
    else
      let candidateNumber := if step < highInfo.number then highInfo.number - step else 0
      match fetch candidateNumber with
      | none => (none, highInfo, [(candidateNumber, false)])
      | some candidateInfo =>
        if candidateInfo.timestampMs ≤ targetMs ∨ candidateNumber = 0 then
          (some candidateInfo, highInfo, [(candidateNumber, true)])
        else
          let r := backoffLoop fetch targetMs fuel candidateInfo (step * 2)
          (r.1, r.2.1, (candidateNumber, true) :: r.2.2)

/-- The binary-search phase (qiHistoryServer.ts:92-107). A failed midpoint
fetch narrows the high bound to the midpoint and continues (the `continue`
at line 97). The numeric gap shrinks every iteration; fuel is supplied for
uniformity with the back-off loop and is never the exit path when
`fuel ≥ (highNum - lowNum).toNat`. Division is truncating as for JS
bigints (the gap is positive here, so it agrees with `Int` division).
Returns `(lowInfo, highInfo, trace)`. -/
def binaryLoop (fetch : ℤ → Option BlockInfo) (targetMs : ℤ) :
    ℕ → ℤ → ℤ → BlockInfo → BlockInfo → BlockInfo × BlockInfo × List (ℤ × Bool)
  | 0, _, _, lowInfo, highInfo => (lowInfo, highInfo, [])
  | fuel + 1, lowNum, highNum, lowInfo, highInfo =>
    if 1 < highNum - lowNum then
      let midNum := lowNum + (highNum - lowNum) / 2
      match fetch midNum with
      | none =>
        let r := binaryLoop fetch targetMs fuel lowNum midNum lowInfo highInfo
        (r.1, r.2.1, (midNum, false) :: r.2.2)
      | some midInfo =>
        if midInfo.timestampMs ≤ targetMs then
          let r := binaryLoop fetch targetMs fuel midNum highNum midInfo highInfo
          (r.1, r.2.1, (midNum, true) :: r.2.2)
        else
          let r := binaryLoop fetch targetMs fuel lowNum midNum lowInfo midInfo
          (r.1, r.2.1, (midNum, true) :: r.2.2)
    else (lowInfo, highInfo, [])

/-- `findBlockAtOrBeforeTimestamp` (qiHistoryServer.ts:52-114) with the
probe trace. -/
def findBlockAtOrBeforeTimestamp (fetch : ℤ → Option BlockInfo)
    (latest : Option BlockInfo) (targetMs : ℤ) (fuel : ℕ) :
    Option BlockInfo × List (ℤ × Bool) :=
  match latest with
  | none => (none, [])
  | some latestInfo =>
    if latestInfo.timestampMs ≤ targetMs then (some latestInfo, [])
    else
      let b := backoffLoop fetch targetMs fuel latestInfo 1
      match b.1 with
      | none => (some b.2.1, b.2.2)
      | some lowInfo =>
        let r := binaryLoop fetch targetMs fuel lowInfo.number b.2.1.number lowInfo b.2.1
        (if r.2.1.timestampMs ≤ targetMs then some r.2.1 else some r.1,
          b.2.2 ++ r.2.2)

/-- Whether a probe trace contains a failed probe that is not the final
probe — i.e. whether the search kept probing after a failure. -/
def probeAfterFailure : List (ℤ × Bool) → Bool
  | [] => false
  | (_, false) :: _ :: _ => true
  | _ :: rest => probeAfterFailure rest

/-- A concrete oracle on which the binary-search phase hits a failed
midpoint (height 5) and keeps probing: block `n` has timestamp `10 n`. -/
def probeFailFetch : ℤ → Option BlockInfo :=
  fun n => if n = 5 then none else some { number := n, timestampMs := n * 10 }

/-! ### Snapshot Sampler (`fetchQiToQuaiSnapshots`, cryptoApi.ts:258-321)

Oracles: `fetchB` models `fetchBlockInfo` on a numeric height and `rateAt`
models `fetchQiToQuai(amount, height)` (the fixed `amount` argument is
folded into the oracle). The bounded-concurrency chunking of the source
(`Promise.all` over chunks in order, cryptoApi.ts:294-314) preserves the
target order and only drops failed fetches, which the `filterMap` below
reproduces; the concurrency level does not affect the returned value. -/

/-- `toStepBigInt` (cryptoApi.ts:187-207) on the bigint/undefined inputs
used by the pipeline: zero becomes 1, negatives their absolute value. -/
def toStepBigInt (step : Option ℤ) : ℤ :=
  match step with
  | none => 1
  | some v => if v = 0 then 1 else if 0 < v then v else -v

/-- `0x${n.toString(16)}` for a bigint that may be negative (JS renders the
sign between `0x` and the digits). -/
def intToHex0x (n : ℤ) : String :=
  if n < 0 then String.mk ('0' :: 'x' :: '-' :: natHexChars n.natAbs)
  else natToHex0x n.toNat

/-- The target-height generation loop (cryptoApi.ts:277-289): walk from
`start` toward `endBlock` by `step`, stopping when the bound is crossed or
`maxSamples` targets have been generated. -/
def genTargets (forward : Bool) (endBlock step : ℤ) : ℤ → ℕ → List ℤ
  | _, 0 => []
  | current, fuel + 1 =>
    if (if forward then current ≤ endBlock else endBlock ≤ current) then
      current ::
        genTargets forward endBlock step
          (if forward then current + step else current - step) fuel
    else []

/-- The body of `fetchQiToQuaiSnapshots` after argument resolution
(cryptoApi.ts:272-320): generate targets, fetch block info and rate per
target (failed block fetches are skipped), and reverse the collected
snapshots when the request was descending. -/
def fetchQiToQuaiSnapshotsCore (fetchB : ℤ → Option BlockInfo) (rateAt : ℤ → String)
    (start endBlock : ℤ) (blockInterval : Option ℤ) (maxSamples : ℕ) : List Snapshot :=
  let step := toStepBigInt blockInterval
  let forward := start ≤ endBlock
  let blockTargets := genTargets forward endBlock step start maxSamples
  let snapshots := blockTargets.filterMap (fun blockNumber =>
    (fetchB blockNumber).map (fun blockInfo =>
      { blockNumber := blockInfo.number
        blockNumberHex := intToHex0x blockInfo.number
        timestamp := blockInfo.timestampMs
        rate := rateAt blockInfo.number }))
  if forward then snapshots else snapshots.reverse

/-- `fetchQiToQuaiSnapshots` (cryptoApi.ts:258-321) for numeric
`startBlock`/`endBlock`: the `maxSamples` guard throws, and
`resolveBlockNumber` rejects negative bigints. -/
def fetchQiToQuaiSnapshots (fetchB : ℤ → Option BlockInfo) (rateAt : ℤ → String)
    (startBlock endBlock : ℤ) (blockInterval : Option ℤ) (maxSamples : ℕ) :
    Except String (List Snapshot) :=
  if maxSamples = 0 then Except.error "maxSamples must be greater than zero"
  else if startBlock < 0 then Except.error "Block number cannot be negative"
  else if endBlock < 0 then Except.error "Block number cannot be negative"
  else Except.ok
    (fetchQiToQuaiSnapshotsCore fetchB rateAt startBlock endBlock blockInterval maxSamples)

/-- Concrete block oracle for the sampler runs: every non-negative height
`n` resolves to a block with timestamp `10 n`. -/
def samplerFetch : ℤ → Option BlockInfo :=
  fun n => if 0 ≤ n then some { number := n, timestampMs := n * 10 } else none

/-! ### `fetchBlockInfo` and its cache (cryptoApi.ts:93-145)

The RPC response header `result.woHeader` is modelled by `RpcHeader` with
its raw string fields; the oracle returns `Except` to model a failed
`fetch` (`!response.ok` throws) and `Option` for a missing header. The
module-level `Map` cache is threaded explicitly as an association list
whose `cacheSet` prepends — observationally equal to `Map.set` under
first-match lookup. A malformed `timestamp` field would store `NaN` in JS;
the embedding collapses that to 0 (no claim below inspects the timestamp
of a malformed header). -/

structure RpcHeader where
  number : String
  timestamp : String
deriving DecidableEq, Repr

/-- The block cache `blockCache` (cryptoApi.ts:53). -/
def BlockCache : Type :=
  List (String × BlockInfo)

/-- First-match lookup, `blockCache.get`. -/
def cacheLookup : BlockCache → String → Option BlockInfo
  | [], _ => none
  | (k, v) :: rest, key => if k = key then some v else cacheLookup rest key

/-- `blockCache.set`. -/
def cacheSet (c : BlockCache) (k : String) (v : BlockInfo) : BlockCache :=
  (k, v) :: c

/-- The RPC path of `fetchBlockInfo` (cryptoApi.ts:104-144): performs the
request, returns `none` for a missing/falsy header, parses the header
fields, and stores the result under the normalized hex key (when that key
is `0x`-prefixed) and under the decimal key of the height. -/
def fetchViaRpc (oracle : String → Except String (Option RpcHeader))
    (cache : BlockCache) (param : String) :
    Except String (Option BlockInfo × BlockCache) :=
  match oracle param with
  | .error e => .error e
  | .ok none => .ok (none, cache)
  | .ok (some header) =>
    if header.timestamp = "" ∨ header.number = "" then .ok (none, cache)
    else
      match jsBigIntOfString header.number with
      | none => .error ("Cannot convert " ++ header.number ++ " to a BigInt")
      | some number =>
        let timestampMs := 1000 * ((jsParseInt16 header.timestamp).getD 0)
        let info : BlockInfo := { number := number, timestampMs := timestampMs }
        match normalizeScalar (.str header.number) with
        | .error e => .error e
        | .ok numberKey =>
          let c1 := if isHex0xString numberKey then cacheSet cache numberKey info else cache
          let c2 := cacheSet c1 (intDecString number) info
          .ok (some info, c2)

/-- `fetchBlockInfo` (cryptoApi.ts:93-145): normalizes the reference,
serves from cache only when the normalized parameter is `0x`-prefixed and
present, and otherwise goes to the RPC. -/
def fetchBlockInfoM (oracle : String → Except String (Option RpcHeader))
    (cache : BlockCache) (block : BlockRef) :
    Except String (Option BlockInfo × BlockCache) :=
  match normalizeBlockParam block with
  | .error e => .error e
  | .ok param =>
    if isHex0xString param then
      match cacheLookup cache param with
      | some info => .ok (some info, cache)
      | none => fetchViaRpc oracle cache param
    else fetchViaRpc oracle cache param

/-- Concrete oracle for the cache-claim witness: every request resolves to
block `0x2a` at hex timestamp `0x10`. -/
def cacheWitnessOracle : String → Except String (Option RpcHeader) :=
  fun _ => .ok (some { number := "0x2a", timestamp := "0x10" })

/-! ## Theorems -/

/-! ### Claim C4: block-reference normalization of invalid inputs -/

/-- Claim C4, counterexample. The claim states that every negative numeric
input (number or bigint) and every malformed hex string fails with an
`InvalidReference` error. On the code, a negative JS `number` is clamped by
`Math.max(0, block)` and normalizes successfully to `"0x0"`, and a
malformed `0x`-prefixed string is passed through without digit validation:
`normalizeBlockParam(-5)` returns `"0x0"` and
`normalizeBlockParam("0xzz")` returns `"0xzz"`. -/
theorem claim4_counterexample :
    normalizeBlockParam (.num (-5)) = .ok "0x0" ∧
    normalizeBlockParam (.str "0xzz") = .ok "0xzz" := by
  decide

/-- Claim C4, amended: only negative `bigint` inputs and unparseable
non-`0x` strings are rejected by `normalizeBlockParam`; a negative JS
`number` is clamped to zero and normalizes to `"0x0"`, and any
`0x`-prefixed string is normalized (leading zeros stripped) without digit
validation, so malformed hex is returned rather than rejected. -/
theorem claim4_amended (n : ℤ) (hn : n < 0) :
    normalizeBlockParam (.big n) = .error "Block number cannot be negative" ∧
    normalizeBlockParam (.num n) = .ok "0x0" ∧
    normalizeBlockParam (.str "0xzz") = .ok "0xzz" ∧
    normalizeBlockParam (.str "garbage") = .error "Invalid block identifier: garbage" := by
  refine ⟨?_, ?_, by decide, by decide⟩
  · simp only [normalizeBlockParam, normalizeScalar]
    rw [if_pos hn]
  · have hmax : (0 : ℤ) ⊔ n = 0 := sup_eq_left.mpr hn.le
    simp only [normalizeBlockParam, normalizeScalar, hmax]
    decide

/-- Witness for `claim4_amended` at the concrete input `-5`. -/
theorem claim4_amended_witness :
    (-5 : ℤ) < 0 ∧
    (normalizeBlockParam (.big (-5)) = .error "Block number cannot be negative" ∧
      normalizeBlockParam (.num (-5)) = .ok "0x0" ∧
      normalizeBlockParam (.str "0xzz") = .ok "0xzz" ∧
      normalizeBlockParam (.str "garbage") = .error "Invalid block identifier: garbage") :=
  ⟨by norm_num, claim4_amended (-5) (by norm_num)⟩

/-! ### Claim C8: resample idempotence on short series -/

/-- Claim C8: the fixed-stride decimation stage returns any series whose
length is already at most `targetCount` unchanged, since the whole stage
is guarded by `workingPoints.length > samples`. -/
theorem claim8_resample_idempotent (target : ℕ) (pts : List QiPoint)
    (h : pts.length ≤ target) : resamplePoints target pts = pts := by
  unfold resamplePoints
  rw [if_neg (not_lt.mpr h)]

/-- Witness for `claim8_resample_idempotent` on a concrete two-point
series with target 3. -/
theorem claim8_witness :
    [(⟨0, 1, "0x1"⟩ : QiPoint), ⟨5, 2, "0x2"⟩].length ≤ 3 ∧
    resamplePoints 3 [(⟨0, 1, "0x1"⟩ : QiPoint), ⟨5, 2, "0x2"⟩] =
      [(⟨0, 1, "0x1"⟩ : QiPoint), ⟨5, 2, "0x2"⟩] :=
  ⟨by simp, claim8_resample_idempotent 3 _ (by simp)⟩

/-! ### Claim C9: exact conversion of a unit rate -/

/-- Claim C9: a snapshot whose rate hex is `0x0de0b6b3a7640000` (the
fixed-point encoding of 1.0) converted against the USD reference price
0.07 yields a price point with `priceUsd` exactly 0.07. -/
theorem claim9_converter_unit_rate :
    convertSnapshots [⟨1, "0x1", 0, "0x0de0b6b3a7640000"⟩] (7 / 100) =
      [⟨0, 7 / 100, "0x1"⟩] := by
  have hparse : jsParseInt16 "0x0de0b6b3a7640000" = some 1000000000000000000 := by decide
  norm_num [convertSnapshots, convertLoop, hparse]

/-! ### Claim C3: positivity of emitted prices -/

set_option maxRecDepth 100000 in
set_option maxHeartbeats 3200000 in
/-- Claim C3, counterexample. On the `30d` range with converted prices
1000, 1, 10, 10 (all positive) and USD reference price 1, the Catmull-Rom
interpolation between the points priced 1 and 10 undershoots far below
zero and is clamped to the guard-band floor
`localMin - 0.35 * (localMax - localMin) = 1 - 0.35 * 9 = -2.15 < 0`,
so the returned series contains a non-positive price. -/
theorem claim3_counterexample :
    (fetchQiPriceHistoryFromRpc .d30 guardBandSnaps 1).any (fun p => p.price ≤ 0) = true := by
  have h1 : jsParseInt16 "0x3635c9adc5dea00000" = some 1000000000000000000000 := by decide
  have h2 : jsParseInt16 "0x0de0b6b3a7640000" = some 1000000000000000000 := by decide
  have h3 : jsParseInt16 "0x8ac7230489e80000" = some 10000000000000000000 := by decide
  norm_num [fetchQiPriceHistoryFromRpc, convertSnapshots, convertLoop, sortByTimestamp,
    List.insertionSort, List.orderedInsert, bucketPoints, bucketLoop, bucketKey, flushBucket,
    newBucket, addToBucket, smoothPoints, rangeSmoothingWindow, rangeSmoothingAlpha,
    rangeDensifySegments, rangeBucketMs, rangeSamples, normalizeSamples, resamplePoints,
    ceilDivNat, takeEvery, takeEveryAux, densifyPoints, densifyLoop, interpGo, jsRound,
    catmullRom, clamp, tsLt, h1, h2, h3, guardBandSnaps]

/-! ### Generic helpers about timestamps and list structure -/

theorem strictTs_iff_pairwise_map {l : List QiPoint} :
    StrictTs l ↔ (tsList l).Pairwise (fun a b => a < b) := by
  simp [StrictTs, tsList, List.pairwise_map]

theorem StrictTs.sublist {l1 l2 : List QiPoint} (hs : List.Sublist l1 l2)
    (h : StrictTs l2) : StrictTs l1 :=
  List.Pairwise.sublist hs h

theorem getLastD_mem {l : List QiPoint} (h : l ≠ []) (d : QiPoint) :
    l.getLastD d ∈ l := by
  cases l with
  | nil => exact absurd rfl h
  | cons a rest =>
    have := List.getLastD_mem_cons rest a
    rwa [List.getLastD_cons]

/-- In a strictly ascending series, every element's timestamp is bounded by
the last element's timestamp. -/
theorem StrictTs.ts_le_getLastD {l : List QiPoint} (h : StrictTs l) (d : QiPoint) :
    ∀ x ∈ l, x.timestamp ≤ (l.getLastD d).timestamp := by
  induction l with
  | nil => intro x hx; cases hx
  | cons a rest ih =>
    intro x hx
    rw [List.getLastD_cons]
    cases rest with
    | nil =>
      rcases List.mem_singleton.mp hx with rfl
      simp
    | cons b rest2 =>
      have hpair := List.pairwise_cons.mp h
      rcases List.mem_cons.mp hx with rfl | hx2
      · have hab : x.timestamp < b.timestamp := hpair.1 b (List.mem_cons_self b rest2)
        have hb := ih hpair.2 b (List.mem_cons_self b rest2)
        exact le_trans hab.le hb
      · exact ih hpair.2 x hx2

/-! ### Converter lemmas -/

theorem convertLoop_cons_seen {u : ℚ} {seen : List ℤ} {s : Snapshot} {rest : List Snapshot}
    (h : s.timestamp ∈ seen) :
    convertLoop u seen (s :: rest) = convertLoop u seen rest := by
  simp [convertLoop, h]

theorem convertLoop_cons_noparse {u : ℚ} {seen : List ℤ} {s : Snapshot} {rest : List Snapshot}
    (h : s.timestamp ∉ seen) (hp : jsParseInt16 s.rate = none) :
    convertLoop u seen (s :: rest) = convertLoop u (s.timestamp :: seen) rest := by
  simp [convertLoop, h, hp]

theorem convertLoop_cons_nonpos {u : ℚ} {seen : List ℤ} {s : Snapshot} {rest : List Snapshot}
    {r : ℤ} (h : s.timestamp ∉ seen) (hp : jsParseInt16 s.rate = some r)
    (hr : (r : ℚ) / (10 ^ 18 : ℚ) ≤ 0) :
    convertLoop u seen (s :: rest) = convertLoop u (s.timestamp :: seen) rest := by
  simp [convertLoop, h, hp, hr]

theorem convertLoop_cons_pos {u : ℚ} {seen : List ℤ} {s : Snapshot} {rest : List Snapshot}
    {r : ℤ} (h : s.timestamp ∉ seen) (hp : jsParseInt16 s.rate = some r)
    (hr : ¬ (r : ℚ) / (10 ^ 18 : ℚ) ≤ 0) :
    convertLoop u seen (s :: rest) =
      { timestamp := s.timestamp
        price := (r : ℚ) / (10 ^ 18 : ℚ) * u
        blockNumberHex := s.blockNumberHex } :: convertLoop u (s.timestamp :: seen) rest := by
  simp [convertLoop, h, hp, hr]

/-- The `seen` set makes the emitted timestamps pairwise distinct, and none
of them is in the initial `seen` set. -/
theorem convertLoop_ts_nodup (u : ℚ) :
    ∀ (snaps : List Snapshot) (seen : List ℤ),
      (tsList (convertLoop u seen snaps)).Nodup ∧
      ∀ t ∈ tsList (convertLoop u seen snaps), t ∉ seen := by
  intro snaps
  induction snaps with
  | nil =>
    intro seen
    simp [convertLoop, tsList]
  | cons s rest ih =>
    intro seen
    by_cases hseen : s.timestamp ∈ seen
    · rw [convertLoop_cons_seen hseen]
      exact ih seen
    · have step :
          convertLoop u seen (s :: rest) = convertLoop u (s.timestamp :: seen) rest ∨
          ∃ pr : ℚ, convertLoop u seen (s :: rest) =
            { timestamp := s.timestamp
              price := pr
              blockNumberHex := s.blockNumberHex } :: convertLoop u (s.timestamp :: seen) rest := by
        rcases hp : jsParseInt16 s.rate with _ | r
        · exact Or.inl (convertLoop_cons_noparse hseen hp)
        · by_cases hr : (r : ℚ) / (10 ^ 18 : ℚ) ≤ 0
          · exact Or.inl (convertLoop_cons_nonpos hseen hp hr)
          · exact Or.inr ⟨_, convertLoop_cons_pos hseen hp hr⟩
      have h2 := ih (s.timestamp :: seen)
      rcases step with hstep | ⟨pr, hstep⟩
      · rw [hstep]
        refine ⟨h2.1, fun t ht hc => h2.2 t ht (List.mem_cons_of_mem _ hc)⟩
      · rw [hstep]
        constructor
        · rw [tsList, List.map_cons]
          refine List.nodup_cons.mpr ⟨?_, h2.1⟩
          intro hc
          exact h2.2 _ hc (List.mem_cons_self _ _)
        · intro t ht
          rcases List.mem_cons.mp ht with rfl | ht2
          · exact hseen
          · intro hc
            exact h2.2 t ht2 (List.mem_cons_of_mem _ hc)

/-- Every point emitted by the converter has a positive price when the USD
reference price is positive (the converter checks `rateDecimal > 0` before
emitting `rateDecimal * quaiUsdPrice`). -/
theorem convertLoop_price_pos {u : ℚ} (hu : 0 < u) :
    ∀ (snaps : List Snapshot) (seen : List ℤ) (q : QiPoint),
      q ∈ convertLoop u seen snaps → 0 < q.price := by
  intro snaps
  induction snaps with
  | nil =>
    intro seen q hq
    simp [convertLoop] at hq
  | cons s rest ih =>
    intro seen q hq
    by_cases hseen : s.timestamp ∈ seen
    · exact ih seen q (by rwa [convertLoop_cons_seen hseen] at hq)
    · rcases hp : jsParseInt16 s.rate with _ | r
      · exact ih (s.timestamp :: seen) q
          (by rwa [convertLoop_cons_noparse hseen hp] at hq)
      · by_cases hr : (r : ℚ) / (10 ^ 18 : ℚ) ≤ 0
        · exact ih (s.timestamp :: seen) q
            (by rwa [convertLoop_cons_nonpos hseen hp hr] at hq)
        · rw [convertLoop_cons_pos hseen hp hr] at hq
          rcases List.mem_cons.mp hq with rfl | hq2
          · exact mul_pos (lt_of_not_le hr) hu
          · exact ih (s.timestamp :: seen) q hq2

/-! ### Sort lemmas -/

theorem sortByTimestamp_perm (l : List QiPoint) :
    List.Perm (sortByTimestamp l) l :=
  List.perm_insertionSort _ l

theorem sortByTimestamp_sorted (l : List QiPoint) : SortedTs (sortByTimestamp l) := by
  haveI : IsTotal QiPoint (fun a b => a.timestamp ≤ b.timestamp) :=
    ⟨fun a b => le_total a.timestamp b.timestamp⟩
  haveI : IsTrans QiPoint (fun a b => a.timestamp ≤ b.timestamp) :=
    ⟨fun _ _ _ hab hbc => le_trans hab hbc⟩
  exact List.sorted_insertionSort _ l

/-- A weakly sorted series with pairwise-distinct timestamps is strictly
ascending. -/
theorem strictTs_of_sorted_nodup {l : List QiPoint} (hs : SortedTs l)
    (hn : (tsList l).Nodup) : StrictTs l := by
  have hne : l.Pairwise (fun a b => a.timestamp ≠ b.timestamp) := by
    simpa [tsList, List.Nodup, List.pairwise_map] using hn
  exact (hs.and hne).imp (fun h => lt_of_le_of_ne h.1 h.2)

/-- The sorted converter output is strictly ascending: this is the state of
`points` at qiHistoryServer.ts:171 after the sort. -/
theorem sorted_convert_strict (snaps : List Snapshot) (u : ℚ) :
    StrictTs (sortByTimestamp (convertSnapshots snaps u)) := by
  apply strictTs_of_sorted_nodup (sortByTimestamp_sorted _)
  have hperm : List.Perm (tsList (sortByTimestamp (convertSnapshots snaps u)))
      (tsList (convertSnapshots snaps u)) :=
    (sortByTimestamp_perm (convertSnapshots snaps u)).map _
  exact hperm.nodup_iff.mpr (convertLoop_ts_nodup u snaps []).1

/-! ### Bucketing lemmas -/

/-- The timestamps emitted by the bucketing loop form a sublist of the
current bucket's `lastTimestamp` followed by the input timestamps: every
emitted point carries the timestamp of some consumed input point, in input
order. -/
theorem bucketLoop_ts_sublist_some (bs : ℤ) :
    ∀ (pts : List QiPoint) (b : BucketState),
      List.Sublist (tsList (bucketLoop bs (some b) pts)) (b.lastTimestamp :: tsList pts) := by
  intro pts
  induction pts with
  | nil =>
    intro b
    by_cases hc : b.count = 0
    · simp [bucketLoop, flushBucket, hc, tsList]
    · simp [bucketLoop, flushBucket, hc, tsList]
  | cons p rest ih =>
    intro b
    by_cases hk : bucketKey bs p.timestamp = b.key
    · have h1 := ih (addToBucket b p)
      have h2 : (addToBucket b p).lastTimestamp = p.timestamp := rfl
      rw [h2] at h1
      have h3 : bucketLoop bs (some b) (p :: rest) =
          bucketLoop bs (some (addToBucket b p)) rest := by
        simp [bucketLoop, hk]
      rw [h3]
      exact h1.trans (List.Sublist.cons b.lastTimestamp
        (by simp [tsList]))
    · have h1 := ih (newBucket bs p)
      have h2 : (newBucket bs p).lastTimestamp = p.timestamp := rfl
      rw [h2] at h1
      by_cases hc : b.count = 0
      · have h3 : bucketLoop bs (some b) (p :: rest) =
            bucketLoop bs (some (newBucket bs p)) rest := by
          simp [bucketLoop, hk, flushBucket, hc]
        rw [h3]
        refine h1.trans ?_
        exact List.Sublist.cons b.lastTimestamp (by simp [tsList])
      · have h3 : bucketLoop bs (some b) (p :: rest) =
            { timestamp := b.lastTimestamp
              price := b.sum / (b.count : ℚ)
              blockNumberHex := b.lastBlock } :: bucketLoop bs (some (newBucket bs p)) rest := by
          simp [bucketLoop, hk, flushBucket, hc]
        rw [h3, tsList, List.map_cons]
        exact List.Sublist.cons₂ _ h1

/-- The bucketed timestamps are a sublist of the input timestamps. -/
theorem bucketPoints_ts_sublist (bs : ℤ) (pts : List QiPoint) :
    List.Sublist (tsList (bucketPoints bs pts)) (tsList pts) := by
  cases pts with
  | nil => simp [bucketPoints, bucketLoop, flushBucket, tsList]
  | cons p rest =>
    have h0 : bucketPoints bs (p :: rest) = bucketLoop bs (some (newBucket bs p)) rest := by
      simp [bucketPoints, bucketLoop]
    rw [h0]
    have h1 := bucketLoop_ts_sublist_some bs rest (newBucket bs p)
    have h2 : (newBucket bs p).lastTimestamp = p.timestamp := rfl
    rw [h2] at h1
    simpa [tsList] using h1

/-- Bucketing preserves strict chronological ascent. -/
theorem bucketPoints_strict {bs : ℤ} {pts : List QiPoint} (h : StrictTs pts) :
    StrictTs (bucketPoints bs pts) := by
  rw [strictTs_iff_pairwise_map] at h ⊢
  exact List.Pairwise.sublist (bucketPoints_ts_sublist bs pts) h

/-- Every price emitted by the bucketing loop from a positive-price input
series and a positive-sum bucket state is positive (each emitted price is
the arithmetic mean of a bucket's prices). -/
theorem bucketLoop_price_pos {bs : ℤ} :
    ∀ (pts : List QiPoint) (b : BucketState),
      (∀ p ∈ pts, 0 < p.price) → 0 < b.sum →
      ∀ q ∈ bucketLoop bs (some b) pts, 0 < q.price := by
  intro pts
  induction pts with
  | nil =>
    intro b _ hb q hq
    by_cases hc : b.count = 0
    · simp [bucketLoop, flushBucket, hc] at hq
    · have : q = { timestamp := b.lastTimestamp
                   price := b.sum / (b.count : ℚ)
                   blockNumberHex := b.lastBlock } := by
        simpa [bucketLoop, flushBucket, hc] using hq
      rw [this]
      have hcpos : (0 : ℚ) < (b.count : ℚ) := by
        exact_mod_cast Nat.pos_of_ne_zero hc
      exact div_pos hb hcpos
  | cons p rest ih =>
    intro b hpos hb q hq
    have hppos : 0 < p.price := hpos p (List.mem_cons_self _ _)
    have hrest : ∀ x ∈ rest, 0 < x.price := fun x hx => hpos x (List.mem_cons_of_mem _ hx)
    by_cases hk : bucketKey bs p.timestamp = b.key
    · have h3 : bucketLoop bs (some b) (p :: rest) =
          bucketLoop bs (some (addToBucket b p)) rest := by
        simp [bucketLoop, hk]
      rw [h3] at hq
      exact ih (addToBucket b p) hrest (by simpa [addToBucket] using add_pos hb hppos) q hq
    · by_cases hc : b.count = 0
      · have h3 : bucketLoop bs (some b) (p :: rest) =
            bucketLoop bs (some (newBucket bs p)) rest := by
          simp [bucketLoop, hk, flushBucket, hc]
        rw [h3] at hq
        exact ih (newBucket bs p) hrest (by simpa [newBucket] using hppos) q hq
      · have h3 : bucketLoop bs (some b) (p :: rest) =
            { timestamp := b.lastTimestamp
              price := b.sum / (b.count : ℚ)
              blockNumberHex := b.lastBlock } :: bucketLoop bs (some (newBucket bs p)) rest := by
          simp [bucketLoop, hk, flushBucket, hc]
        rw [h3] at hq
        rcases List.mem_cons.mp hq with rfl | hq2
        · have hcpos : (0 : ℚ) < (b.count : ℚ) := by
            exact_mod_cast Nat.pos_of_ne_zero hc
          exact div_pos hb hcpos
        · exact ih (newBucket bs p) hrest (by simpa [newBucket] using hppos) q hq2

/-- Every bucketed price of a positive-price series is positive. -/
theorem bucketPoints_price_pos {bs : ℤ} {pts : List QiPoint}
    (hpos : ∀ p ∈ pts, 0 < p.price) :
    ∀ q ∈ bucketPoints bs pts, 0 < q.price := by
  cases pts with
  | nil => intro q hq; simp [bucketPoints, bucketLoop, flushBucket] at hq
  | cons p rest =>
    have h0 : bucketPoints bs (p :: rest) = bucketLoop bs (some (newBucket bs p)) rest := by
      simp [bucketPoints, bucketLoop]
    rw [h0]
    exact bucketLoop_price_pos rest (newBucket bs p)
      (fun x hx => hpos x (List.mem_cons_of_mem _ hx))
      (by simpa [newBucket] using hpos p (List.mem_cons_self _ _))

/-! ### Smoothing lemmas -/

theorem headD_mem {l : List QiPoint} (h : l ≠ []) (d : QiPoint) : l.headD d ∈ l := by
  cases l with
  | nil => exact absurd rfl h
  | cons a rest => simp

theorem movingAverageLoop_tsList (pts : List QiPoint) (hw : ℕ) :
    ∀ (l : List QiPoint) (i : ℕ), tsList (movingAverageLoop pts hw i l) = tsList l := by
  intro l
  induction l with
  | nil => intro i; simp [movingAverageLoop, tsList]
  | cons p rest ih =>
    intro i
    have h2 := ih (i + 1)
    simp only [tsList] at h2 ⊢
    simp only [movingAverageLoop, List.map_cons]
    rw [h2]

theorem emaLoop_tsList (alpha : ℚ) :
    ∀ (l : List QiPoint) (prev : ℚ), tsList (emaLoop alpha prev l) = tsList l := by
  intro l
  induction l with
  | nil => intro prev; simp [emaLoop, tsList]
  | cons p rest ih =>
    intro prev
    have h2 := ih (alpha * p.price + (1 - alpha) * prev)
    simp only [tsList] at h2 ⊢
    simp only [emaLoop, List.map_cons]
    rw [h2]

/-- Smoothing only rewrites prices: the timestamp sequence is unchanged. -/
theorem smoothPoints_tsList (range : QiHistoryRange) (pts : List QiPoint) :
    tsList (smoothPoints range pts) = tsList pts := by
  unfold smoothPoints
  rcases rangeSmoothingWindow range with _ | w
  · rfl
  · by_cases hw : w ≤ 1 ∨ pts.length ≤ w
    · simp [hw]
    · rcases rangeSmoothingAlpha range with _ | alpha
      · simp [hw, movingAverageLoop_tsList]
      · by_cases ha : alpha ≤ 0 ∨ 1 ≤ alpha
        · simp [hw, ha, movingAverageLoop_tsList]
        · simp [hw, ha, emaLoop_tsList, movingAverageLoop_tsList]

theorem smoothPoints_length (range : QiHistoryRange) (pts : List QiPoint) :
    (smoothPoints range pts).length = pts.length := by
  have h := smoothPoints_tsList range pts
  have h1 : (tsList (smoothPoints range pts)).length = (tsList pts).length := by rw [h]
  simpa [tsList] using h1

/-- Smoothing preserves strict chronological ascent. -/
theorem smoothPoints_strict {range : QiHistoryRange} {pts : List QiPoint}
    (h : StrictTs pts) : StrictTs (smoothPoints range pts) := by
  rw [strictTs_iff_pairwise_map] at h ⊢
  rwa [smoothPoints_tsList]

/-- The moving-average price over a window of a positive-price series is
positive: the window always contains the point's own index. -/
theorem movingAveragePrice_pos {pts : List QiPoint}
    (hpos : ∀ p ∈ pts, 0 < p.price) {hw : ℕ} {i : ℕ} (hi : i < pts.length) :
    0 < movingAveragePrice pts hw i := by
  unfold movingAveragePrice
  set idxs := (List.range pts.length).filter
    (fun (j : ℕ) => (i : ℤ) - (hw : ℤ) ≤ (j : ℤ) ∧ (j : ℤ) ≤ (i : ℤ) + (hw : ℤ)) with hidxs
  have hmem : i ∈ idxs := by
    rw [hidxs]
    refine List.mem_filter.mpr ⟨List.mem_range.mpr hi, ?_⟩
    simp
  have hne : idxs ≠ [] := fun hc => by simp [hc] at hmem
  have hsum : 0 < (idxs.map (fun j => (pts.getD j default).price)).sum := by
    apply List.sum_pos
    · intro x hx
      rcases List.mem_map.mp hx with ⟨j, hj, rfl⟩
      have hjlt : j < pts.length := by
        have := List.mem_filter.mp (hidxs ▸ hj)
        exact List.mem_range.mp this.1
      have hget : pts.getD j default = pts[j] := List.getD_eq_getElem pts default hjlt
      rw [hget]
      exact hpos _ (List.getElem_mem hjlt)
    · intro hc
      exact hne (List.map_eq_nil_iff.mp hc)
  apply div_pos hsum
  have : 0 < max 1 idxs.length := by positivity
  exact_mod_cast this

/-- Every moving-averaged price is positive when the input prices are. -/
theorem movingAverageLoop_price_pos {pts : List QiPoint}
    (hpos : ∀ p ∈ pts, 0 < p.price) (hw : ℕ) :
    ∀ (l : List QiPoint) (i : ℕ), i + l.length ≤ pts.length →
      ∀ q ∈ movingAverageLoop pts hw i l, 0 < q.price := by
  intro l
  induction l with
  | nil => intro i _ q hq; simp [movingAverageLoop] at hq
  | cons p rest ih =>
    intro i hlen q hq
    rcases List.mem_cons.mp (by simpa [movingAverageLoop] using hq) with rfl | hq2
    · have hi : i < pts.length := by
        simp only [List.length_cons] at hlen
        omega
      exact movingAveragePrice_pos hpos hi
    · have h2 : i + 1 + rest.length ≤ pts.length := by
        simp only [List.length_cons] at hlen
        omega
      exact ih (i + 1) h2 q hq2

/-- Every exponentially smoothed price is positive when the inputs and the
seed are positive and `0 < alpha < 1`. -/
theorem emaLoop_price_pos {alpha : ℚ} (ha0 : 0 < alpha) (ha1 : alpha < 1) :
    ∀ (l : List QiPoint) (prev : ℚ), 0 < prev → (∀ p ∈ l, 0 < p.price) →
      ∀ q ∈ emaLoop alpha prev l, 0 < q.price := by
  intro l
  induction l with
  | nil => intro prev _ _ q hq; simp [emaLoop] at hq
  | cons p rest ih =>
    intro prev hprev hpos q hq
    have hsm : 0 < alpha * p.price + (1 - alpha) * prev := by
      have h1 : 0 < alpha * p.price := mul_pos ha0 (hpos p (List.mem_cons_self _ _))
      have h2 : 0 < (1 - alpha) * prev := mul_pos (by linarith) hprev
      linarith
    rcases List.mem_cons.mp (by simpa [emaLoop] using hq) with rfl | hq2
    · exact hsm
    · exact ih _ hsm (fun x hx => hpos x (List.mem_cons_of_mem _ hx)) q hq2

/-- Smoothing preserves price positivity. -/
theorem smoothPoints_price_pos {range : QiHistoryRange} {pts : List QiPoint}
    (hpos : ∀ p ∈ pts, 0 < p.price) :
    ∀ q ∈ smoothPoints range pts, 0 < q.price := by
  unfold smoothPoints
  rcases rangeSmoothingWindow range with _ | w
  · exact hpos
  · by_cases hw : w ≤ 1 ∨ pts.length ≤ w
    · simpa [hw] using hpos
    · have hwn := hw
      push_neg at hwn
      have hma : ∀ q ∈ movingAverageLoop pts (w / 2) 0 pts, 0 < q.price :=
        movingAverageLoop_price_pos hpos (w / 2) pts 0 (by omega)
      have hmane : movingAverageLoop pts (w / 2) 0 pts ≠ [] := by
        intro hc
        have h1 := movingAverageLoop_tsList pts (w / 2) pts 0
        rw [hc] at h1
        have h2 : pts.length = 0 := by
          have := congrArg List.length h1
          simpa [tsList] using this.symm
        omega
      rcases rangeSmoothingAlpha range with _ | alpha
      · simpa [hw] using hma
      · by_cases ha : alpha ≤ 0 ∨ 1 ≤ alpha
        · simpa [hw, ha] using hma
        · have han := ha
          push_neg at han
          intro q hq
          have hq2 : q ∈ emaLoop alpha
              ((movingAverageLoop pts (w / 2) 0 pts).headD default).price
              (movingAverageLoop pts (w / 2) 0 pts) := by
            simpa [hw, ha] using hq
          refine emaLoop_price_pos han.1 han.2 _ _ ?_ hma q hq2
          exact hma _ (headD_mem hmane default)

/-! ### Resampling lemmas -/

theorem takeEveryAux_sublist (stride : ℕ) :
    ∀ (l : List QiPoint) (k : ℕ), List.Sublist (takeEveryAux stride k l) l := by
  intro l
  induction l with
  | nil => intro k; simp [takeEveryAux]
  | cons p rest ih =>
    intro k
    cases k with
    | zero => exact List.Sublist.cons₂ p (ih (stride - 1))
    | succ k2 => exact List.Sublist.cons p (ih k2)

theorem takeEvery_sublist (stride : ℕ) (l : List QiPoint) :
    List.Sublist (takeEvery stride l) l :=
  takeEveryAux_sublist stride l 0

/-- The ceiling-division recurrence used to count selected indices. -/
theorem ceilDivNat_pos_step {n s : ℕ} (hs : 0 < s) (hn : 0 < n) :
    ceilDivNat n s = 1 + ceilDivNat (n - s) s := by
  unfold ceilDivNat
  by_cases hcase : n ≤ s
  · have h1 : (n + s - 1) / s = 1 := by
      apply Nat.div_eq_of_lt_le
      · omega
      · omega
    have h2 : (n - s + s - 1) / s = 0 := Nat.div_eq_of_lt (by omega)
    omega
  · have h3 : n + s - 1 = (n - s + s - 1) + s := by omega
    rw [h3, Nat.add_div_right _ hs]
    omega

theorem takeEveryAux_length {stride : ℕ} (hs : 0 < stride) :
    ∀ (l : List QiPoint) (k : ℕ),
      (takeEveryAux stride k l).length = ceilDivNat (l.length - k) stride := by
  intro l
  induction l with
  | nil =>
    intro k
    have hdiv : (stride - 1) / stride = 0 := Nat.div_eq_of_lt (by omega)
    cases k <;> simp [takeEveryAux, ceilDivNat, hdiv]
  | cons p rest ih =>
    intro k
    cases k with
    | zero =>
      have h1 := ih (stride - 1)
      have h2 : (takeEveryAux stride 0 (p :: rest)).length =
          1 + (takeEveryAux stride (stride - 1) rest).length := by
        show (p :: takeEveryAux stride (stride - 1) rest).length = _
        rw [List.length_cons]
        omega
      have hstep : ceilDivNat (p :: rest).length stride =
          1 + ceilDivNat ((p :: rest).length - stride) stride :=
        ceilDivNat_pos_step hs (by rw [List.length_cons]; omega)
      have h3 : rest.length - (stride - 1) = (p :: rest).length - stride := by
        rw [List.length_cons]
        omega
      rw [h2, h1, h3, Nat.sub_zero, hstep]
    | succ k2 =>
      have h1 := ih k2
      have h2 : (takeEveryAux stride (k2 + 1) (p :: rest)).length =
          (takeEveryAux stride k2 rest).length := rfl
      rw [h2, h1]
      congr 1
      rw [List.length_cons]
      omega

theorem takeEvery_length {stride : ℕ} (hs : 0 < stride) (l : List QiPoint) :
    (takeEvery stride l).length = ceilDivNat l.length stride := by
  have h := takeEveryAux_length hs l 0
  rw [Nat.sub_zero] at h
  exact h

/-- `n ≤ t * ceil(n / t)`. -/
theorem le_mul_ceilDivNat {n t : ℕ} (ht : 0 < t) : n ≤ t * ceilDivNat n t := by
  unfold ceilDivNat
  have hdm := Nat.div_add_mod (n + t - 1) t
  have hmlt : (n + t - 1) % t < t := Nat.mod_lt _ ht
  omega

/-- The decimated count is bounded by the target:
`ceil(n / ceil(n / t)) ≤ t` whenever `t < n`. -/
theorem ceilDivNat_ceilDivNat_le {n t : ℕ} (ht : 0 < t) (hn : t < n) :
    ceilDivNat n (ceilDivNat n t) ≤ t := by
  set q := ceilDivNat n t with hq
  have hq1 : 0 < q := by
    rw [hq]
    unfold ceilDivNat
    have h1 : t ≤ n + t - 1 := by omega
    exact Nat.div_pos h1 ht
  have hle : n ≤ t * q := le_mul_ceilDivNat ht
  show (n + q - 1) / q ≤ t
  have h2 : (n + q - 1) / q < t + 1 := by
    rw [Nat.div_lt_iff_lt_mul hq1]
    have h3 : n + q - 1 < t * q + q := by omega
    have h4 : t * q + q = (t + 1) * q := by ring
    omega
  omega

/-- Characterization of the active decimation branch. -/
theorem resamplePoints_spec_lt {target : ℕ} {pts : List QiPoint}
    (hgt : target < pts.length) :
    resamplePoints target pts =
      if takeEvery (ceilDivNat pts.length target) pts = [] ∨
          ((takeEvery (ceilDivNat pts.length target) pts).getLastD default).timestamp ≠
            (pts.getLastD default).timestamp
      then takeEvery (ceilDivNat pts.length target) pts ++ [pts.getLastD default]
      else takeEvery (ceilDivNat pts.length target) pts := by
  unfold resamplePoints
  rw [if_pos hgt]

/-- A sublist of a strict series stays strict after force-appending the
series' final point, provided the sublist's final timestamp differs. -/
theorem strictTs_append_last {pts red : List QiPoint} (h : StrictTs pts)
    (hsub : List.Sublist red pts)
    (hcond : red = [] ∨
      (red.getLastD default).timestamp ≠ (pts.getLastD default).timestamp) :
    StrictTs (red ++ [pts.getLastD default]) := by
  rcases eq_or_ne red [] with hredeq | hredne
  · rw [hredeq]
    exact List.pairwise_singleton _ _
  · have hlastne : (red.getLastD default).timestamp ≠ (pts.getLastD default).timestamp := by
      rcases hcond with hc | hc
      · exact absurd hc hredne
      · exact hc
    have hredstrict : StrictTs red := StrictTs.sublist hsub h
    rw [StrictTs, List.pairwise_append]
    refine ⟨hredstrict, List.pairwise_singleton _ _, ?_⟩
    intro x hx y hy
    rcases List.mem_singleton.mp hy with rfl
    have hxp : x ∈ pts := hsub.subset hx
    have hxle : x.timestamp ≤ (pts.getLastD default).timestamp :=
      h.ts_le_getLastD default x hxp
    rcases lt_or_eq_of_le hxle with hlt | heq
    · exact hlt
    · exfalso
      have hxle2 : x.timestamp ≤ (red.getLastD default).timestamp :=
        hredstrict.ts_le_getLastD default x hx
    -- the last element of `red` sits in `pts`, so its timestamp is at most
    -- the final timestamp; with `x` already at the maximum this forces
    -- equality, contradicting `hlastne`
      have hl3 : (red.getLastD default).timestamp ≤ (pts.getLastD default).timestamp :=
        h.ts_le_getLastD default _ (hsub.subset (getLastD_mem hredne default))
      exact hlastne (le_antisymm hl3 (heq ▸ hxle2))

/-- The output length of one decimation stage never exceeds `target + 1`
(the stride selection yields at most `target` points, plus possibly the
force-appended final point). -/
theorem resamplePoints_length_le {target : ℕ} (ht : 0 < target) (pts : List QiPoint) :
    (resamplePoints target pts).length ≤ target + 1 := by
  by_cases hlen : target < pts.length
  · rw [resamplePoints_spec_lt hlen]
    have hred : (takeEvery (ceilDivNat pts.length target) pts).length ≤ target := by
      rw [takeEvery_length]
      · exact ceilDivNat_ceilDivNat_le ht hlen
      · unfold ceilDivNat
        have h1 : target ≤ pts.length + target - 1 := by omega
        exact Nat.div_pos h1 ht
    by_cases happ : takeEvery (ceilDivNat pts.length target) pts = [] ∨
        ((takeEvery (ceilDivNat pts.length target) pts).getLastD default).timestamp ≠
          (pts.getLastD default).timestamp
    · rw [if_pos happ]
      rw [List.length_append, List.length_singleton]
      omega
    · rw [if_neg happ]
      omega
  · unfold resamplePoints
    rw [if_neg hlen]
    omega

/-- A decimation stage applied to a series of length at most `target + 1`
returns at most `target` points: either the series is short enough to pass
through, or it has length `target + 1`, the stride is 2, and about half
the points are kept. -/
theorem resamplePoints_length_tight {target : ℕ} (ht : 3 ≤ target) {pts : List QiPoint}
    (hlen : pts.length ≤ target + 1) :
    (resamplePoints target pts).length ≤ target := by
  by_cases hgt : target < pts.length
  · rw [resamplePoints_spec_lt hgt]
    have hn : pts.length = target + 1 := by omega
    have hstride : ceilDivNat pts.length target = 2 := by
      unfold ceilDivNat
      rw [hn]
      have h2 : target + 1 + target - 1 = 2 * target := by omega
      rw [h2]
      exact Nat.mul_div_cancel 2 (by omega)
    have hred : (takeEvery (ceilDivNat pts.length target) pts).length =
        ceilDivNat (target + 1) 2 := by
      rw [takeEvery_length (by omega), hstride, hn]
    by_cases happ : takeEvery (ceilDivNat pts.length target) pts = [] ∨
        ((takeEvery (ceilDivNat pts.length target) pts).getLastD default).timestamp ≠
          (pts.getLastD default).timestamp
    · rw [if_pos happ]
      rw [List.length_append, List.length_singleton, hred]
      unfold ceilDivNat
      omega
    · rw [if_neg happ]
      rw [hred]
      unfold ceilDivNat
      omega
  · unfold resamplePoints
    rw [if_neg hgt]
    omega

/-- Decimation preserves membership in the original series. -/
theorem resamplePoints_mem {target : ℕ} {pts : List QiPoint} :
    ∀ q ∈ resamplePoints target pts, q ∈ pts := by
  by_cases hgt : target < pts.length
  · rw [resamplePoints_spec_lt hgt]
    have hne : pts ≠ [] := by
      intro hc
      rw [hc] at hgt
      simp at hgt
    intro q hq
    by_cases happ : takeEvery (ceilDivNat pts.length target) pts = [] ∨
        ((takeEvery (ceilDivNat pts.length target) pts).getLastD default).timestamp ≠
          (pts.getLastD default).timestamp
    · rw [if_pos happ] at hq
      rcases List.mem_append.mp hq with hq2 | hq2
      · exact (takeEvery_sublist _ pts).subset hq2
      · rcases List.mem_singleton.mp hq2 with rfl
        exact getLastD_mem hne default
    · rw [if_neg happ] at hq
      exact (takeEvery_sublist _ pts).subset hq
  · unfold resamplePoints
    rw [if_neg hgt]
    intro q hq
    exact hq

/-- Decimation preserves strict chronological ascent. -/
theorem resamplePoints_strict {target : ℕ} {pts : List QiPoint} (h : StrictTs pts) :
    StrictTs (resamplePoints target pts) := by
  by_cases hgt : target < pts.length
  · rw [resamplePoints_spec_lt hgt]
    by_cases happ : takeEvery (ceilDivNat pts.length target) pts = [] ∨
        ((takeEvery (ceilDivNat pts.length target) pts).getLastD default).timestamp ≠
          (pts.getLastD default).timestamp
    · rw [if_pos happ]
      exact strictTs_append_last h (takeEvery_sublist _ pts) happ
    · rw [if_neg happ]
      exact StrictTs.sublist (takeEvery_sublist _ pts) h
  · unfold resamplePoints
    rw [if_neg hgt]
    exact h

/-! ### Densifier lemmas -/

theorem tsLt_trans {o : Option ℤ} {a b : ℤ} (h1 : tsLt o a = true) (h2 : a < b) :
    tsLt o b = true := by
  cases o with
  | none => rfl
  | some v =>
    simp only [tsLt, decide_eq_true_eq] at h1 ⊢
    omega

/-- Joint invariant of the interpolation loop: every emitted point lies
strictly above the incoming `lastTimestamp`, the emitted points are
strictly ascending, and any timestamp above the returned `lastTimestamp`
dominates both the incoming bound and every emitted point. -/
theorem interpGo_spec (segments : ℕ) (pp cp np nnp : ℚ) (curTs : ℤ) (curBlock : String)
    (deltaTime : ℤ) (guardLo guardHi : ℚ) :
    ∀ (left s : ℕ) (lastTs : Option ℤ),
      (∀ q ∈ (interpGo segments pp cp np nnp curTs curBlock deltaTime guardLo guardHi
          left s lastTs).1, tsLt lastTs q.timestamp = true) ∧
      StrictTs (interpGo segments pp cp np nnp curTs curBlock deltaTime guardLo guardHi
          left s lastTs).1 ∧
      (∀ b : ℤ, tsLt (interpGo segments pp cp np nnp curTs curBlock deltaTime guardLo guardHi
          left s lastTs).2 b = true →
        tsLt lastTs b = true ∧
        ∀ q ∈ (interpGo segments pp cp np nnp curTs curBlock deltaTime guardLo guardHi
            left s lastTs).1, q.timestamp < b) := by
  intro left
  induction left with
  | zero =>
    intro s lastTs
    refine ⟨?_, ?_, ?_⟩
    · intro q hq
      simp [interpGo] at hq
    · simp [interpGo, StrictTs]
    · intro b hb
      refine ⟨hb, ?_⟩
      intro q hq
      simp [interpGo] at hq
  | succ left2 ih =>
    intro s lastTs
    by_cases hts : tsLt lastTs (curTs + jsRound ((deltaTime : ℚ) * ((s : ℚ) / (segments : ℚ)))) = true
    · have hunf : interpGo segments pp cp np nnp curTs curBlock deltaTime guardLo guardHi
          (left2 + 1) s lastTs =
          ({ timestamp := curTs + jsRound ((deltaTime : ℚ) * ((s : ℚ) / (segments : ℚ)))
             price := clamp (catmullRom pp cp np nnp ((s : ℚ) / (segments : ℚ)))
               (min guardLo guardHi) (max guardLo guardHi)
             blockNumberHex := curBlock } ::
            (interpGo segments pp cp np nnp curTs curBlock deltaTime guardLo guardHi
              left2 (s + 1) (some (curTs + jsRound ((deltaTime : ℚ) * ((s : ℚ) / (segments : ℚ)))))).1,
           (interpGo segments pp cp np nnp curTs curBlock deltaTime guardLo guardHi
              left2 (s + 1) (some (curTs + jsRound ((deltaTime : ℚ) * ((s : ℚ) / (segments : ℚ)))))).2) := by
        simp only [interpGo, hts, if_pos]
      set ts := curTs + jsRound ((deltaTime : ℚ) * ((s : ℚ) / (segments : ℚ))) with hts2
      obtain ⟨ih1, ih2, ih3⟩ := ih (s + 1) (some ts)
      rw [hunf]
      refine ⟨?_, ?_, ?_⟩
      · intro q hq
        rcases List.mem_cons.mp hq with rfl | hq2
        · exact hts
        · have h1 : ts < q.timestamp := by
            have := ih1 q hq2
            simpa [tsLt] using this
          exact tsLt_trans hts h1
      · refine List.pairwise_cons.mpr ⟨?_, ih2⟩
        intro q hq
        have := ih1 q hq
        simpa [tsLt] using this
      · intro b hb
        obtain ⟨hb1, hb2⟩ := ih3 b hb
        have htsb : ts < b := by simpa [tsLt] using hb1
        refine ⟨tsLt_trans hts htsb, ?_⟩
        intro q hq
        rcases List.mem_cons.mp hq with rfl | hq2
        · exact htsb
        · exact hb2 q hq2
    · have hunf : interpGo segments pp cp np nnp curTs curBlock deltaTime guardLo guardHi
          (left2 + 1) s lastTs =
          interpGo segments pp cp np nnp curTs curBlock deltaTime guardLo guardHi
            left2 (s + 1) lastTs := by
        simp only [interpGo, hts]
        simp
      rw [hunf]
      exact ih (s + 1) lastTs

theorem interpGo_length (segments : ℕ) (pp cp np nnp : ℚ) (curTs : ℤ) (curBlock : String)
    (deltaTime : ℤ) (guardLo guardHi : ℚ) :
    ∀ (left s : ℕ) (lastTs : Option ℤ),
      (interpGo segments pp cp np nnp curTs curBlock deltaTime guardLo guardHi
        left s lastTs).1.length ≤ left := by
  intro left
  induction left with
  | zero => intro s lastTs; simp [interpGo]
  | succ left2 ih =>
    intro s lastTs
    by_cases hts : tsLt lastTs (curTs + jsRound ((deltaTime : ℚ) * ((s : ℚ) / (segments : ℚ)))) = true
    · have h1 := ih (s + 1) (some (curTs + jsRound ((deltaTime : ℚ) * ((s : ℚ) / (segments : ℚ)))))
      simp only [interpGo, hts, if_pos, List.length_cons]
      omega
    · have h1 := ih (s + 1) lastTs
      simp only [interpGo, hts]
      simp only [Bool.false_eq_true, if_false]
      omega

/-- Unfolding of the densify loop body for a pair with non-positive time
gap, when the current point is emitted. -/
theorem densifyLoop_cons_nodelta_emit {segments : ℕ} {prev current next : QiPoint}
    {rest : List QiPoint} {lastTs : Option ℤ}
    (h1 : tsLt lastTs current.timestamp = true)
    (h2 : next.timestamp - current.timestamp ≤ 0) :
    densifyLoop segments prev lastTs (current :: next :: rest) =
      current :: densifyLoop segments current (some current.timestamp) (next :: rest) := by
  simp [densifyLoop, h1, h2]

/-- Unfolding of the densify loop body for a pair with non-positive time
gap, when the current point is skipped. -/
theorem densifyLoop_cons_nodelta_skip {segments : ℕ} {prev current next : QiPoint}
    {rest : List QiPoint} {lastTs : Option ℤ}
    (h1 : tsLt lastTs current.timestamp = false)
    (h2 : next.timestamp - current.timestamp ≤ 0) :
    densifyLoop segments prev lastTs (current :: next :: rest) =
      densifyLoop segments current lastTs (next :: rest) := by
  simp [densifyLoop, h1, h2]

/-- Unfolding of the densify loop body for a pair with positive time gap,
when the current point is emitted. -/
theorem densifyLoop_cons_delta_emit {segments : ℕ} {prev current next : QiPoint}
    {rest : List QiPoint} {lastTs : Option ℤ}
    (h1 : tsLt lastTs current.timestamp = true)
    (h2 : ¬ next.timestamp - current.timestamp ≤ 0) :
    densifyLoop segments prev lastTs (current :: next :: rest) =
      current ::
        (interpGo segments prev.price current.price next.price (rest.headD next).price
          current.timestamp current.blockNumberHex (next.timestamp - current.timestamp)
          (pairGuardMin current next) (pairGuardMax current next)
          (segments - 1) 1 (some current.timestamp)).1 ++
        densifyLoop segments current
          (interpGo segments prev.price current.price next.price (rest.headD next).price
            current.timestamp current.blockNumberHex (next.timestamp - current.timestamp)
            (pairGuardMin current next) (pairGuardMax current next)
            (segments - 1) 1 (some current.timestamp)).2 (next :: rest) := by
  simp [densifyLoop, h1, h2, pairGuardMin, pairGuardMax]

/-- Unfolding of the densify loop body for a pair with positive time gap,
when the current point is skipped. -/
theorem densifyLoop_cons_delta_skip {segments : ℕ} {prev current next : QiPoint}
    {rest : List QiPoint} {lastTs : Option ℤ}
    (h1 : tsLt lastTs current.timestamp = false)
    (h2 : ¬ next.timestamp - current.timestamp ≤ 0) :
    densifyLoop segments prev lastTs (current :: next :: rest) =
      (interpGo segments prev.price current.price next.price (rest.headD next).price
        current.timestamp current.blockNumberHex (next.timestamp - current.timestamp)
        (pairGuardMin current next) (pairGuardMax current next)
        (segments - 1) 1 lastTs).1 ++
      densifyLoop segments current
        (interpGo segments prev.price current.price next.price (rest.headD next).price
          current.timestamp current.blockNumberHex (next.timestamp - current.timestamp)
          (pairGuardMin current next) (pairGuardMax current next)
          (segments - 1) 1 lastTs).2 (next :: rest) := by
  simp [densifyLoop, h1, h2, pairGuardMin, pairGuardMax]

/-- Joint invariant of the densify loop: every emitted point lies strictly
above the incoming `lastTimestamp`, and the emitted points are strictly
ascending. -/
theorem densifyLoop_spec (segments : ℕ) :
    ∀ (pts : List QiPoint) (prev : QiPoint) (lastTs : Option ℤ),
      (∀ q ∈ densifyLoop segments prev lastTs pts, tsLt lastTs q.timestamp = true) ∧
      StrictTs (densifyLoop segments prev lastTs pts) := by
  intro pts
  induction pts with
  | nil =>
    intro prev lastTs
    constructor
    · intro q hq; simp [densifyLoop] at hq
    · simp [densifyLoop, StrictTs]
  | cons current tail ih =>
    intro prev lastTs
    cases tail with
    | nil =>
      constructor
      · intro q hq; simp [densifyLoop] at hq
      · simp [densifyLoop, StrictTs]
    | cons next rest =>
      by_cases hdelta : next.timestamp - current.timestamp ≤ 0
      · by_cases hemit : tsLt lastTs current.timestamp = true
        · rw [densifyLoop_cons_nodelta_emit hemit hdelta]
          obtain ⟨ihA, ihB⟩ := ih current (some current.timestamp)
          constructor
          · intro q hq
            rcases List.mem_cons.mp hq with rfl | hq2
            · exact hemit
            · exact tsLt_trans hemit (by simpa [tsLt] using ihA q hq2)
          · refine List.pairwise_cons.mpr ⟨?_, ihB⟩
            intro q hq
            simpa [tsLt] using ihA q hq
        · rw [densifyLoop_cons_nodelta_skip (Bool.not_eq_true _ ▸ hemit) hdelta]
          exact ih current lastTs
      · by_cases hemit : tsLt lastTs current.timestamp = true
        · rw [densifyLoop_cons_delta_emit hemit hdelta]
          obtain ⟨iI, iiI, iiiI⟩ := interpGo_spec segments prev.price current.price next.price
            (rest.headD next).price current.timestamp current.blockNumberHex
            (next.timestamp - current.timestamp) (pairGuardMin current next)
            (pairGuardMax current next) (segments - 1) 1 (some current.timestamp)
          obtain ⟨ihA, ihB⟩ := ih current
            (interpGo segments prev.price current.price next.price (rest.headD next).price
              current.timestamp current.blockNumberHex (next.timestamp - current.timestamp)
              (pairGuardMin current next) (pairGuardMax current next)
              (segments - 1) 1 (some current.timestamp)).2
          constructor
          · intro q hq
            rcases List.mem_cons.mp hq with rfl | hq2
            · exact hemit
            · rcases List.mem_append.mp hq2 with hq3 | hq3
              · exact tsLt_trans hemit (by simpa [tsLt] using iI q hq3)
              · have hrec := ihA q hq3
                obtain ⟨h4, _⟩ := iiiI q.timestamp hrec
                exact tsLt_trans hemit (by simpa [tsLt] using h4)
          · refine List.pairwise_cons.mpr ⟨?_, ?_⟩
            · intro q hq
              rcases List.mem_append.mp hq with hq3 | hq3
              · simpa [tsLt] using iI q hq3
              · have hrec := ihA q hq3
                obtain ⟨h4, _⟩ := iiiI q.timestamp hrec
                simpa [tsLt] using h4
            · refine List.pairwise_append.mpr ⟨iiI, ihB, ?_⟩
              intro x hx y hy
              have hrec := ihA y hy
              obtain ⟨_, h5⟩ := iiiI y.timestamp hrec
              exact h5 x hx
        · rw [densifyLoop_cons_delta_skip (Bool.not_eq_true _ ▸ hemit) hdelta]
          obtain ⟨iI, iiI, iiiI⟩ := interpGo_spec segments prev.price current.price next.price
            (rest.headD next).price current.timestamp current.blockNumberHex
            (next.timestamp - current.timestamp) (pairGuardMin current next)
            (pairGuardMax current next) (segments - 1) 1 lastTs
          obtain ⟨ihA, ihB⟩ := ih current
            (interpGo segments prev.price current.price next.price (rest.headD next).price
              current.timestamp current.blockNumberHex (next.timestamp - current.timestamp)
              (pairGuardMin current next) (pairGuardMax current next)
              (segments - 1) 1 lastTs).2
          constructor
          · intro q hq
            rcases List.mem_append.mp hq with hq3 | hq3
            · exact iI q hq3
            · have hrec := ihA q hq3
              exact (iiiI q.timestamp hrec).1
          · refine List.pairwise_append.mpr ⟨iiI, ihB, ?_⟩
            intro x hx y hy
            have hrec := ihA y hy
            exact (iiiI y.timestamp hrec).2 x hx

/-- Each loop iteration emits at most `segments` points (the current point
plus at most `segments - 1` interpolations). -/
theorem densifyLoop_length {segments : ℕ} (hseg : 1 ≤ segments) :
    ∀ (pts : List QiPoint) (prev : QiPoint) (lastTs : Option ℤ),
      (densifyLoop segments prev lastTs pts).length ≤ segments * (pts.length - 1) := by
  intro pts
  induction pts with
  | nil => intro prev lastTs; simp [densifyLoop]
  | cons current tail ih =>
    intro prev lastTs
    cases tail with
    | nil => simp [densifyLoop]
    | cons next rest =>
      have hlen2 : (next :: rest).length - 1 + 1 = (current :: next :: rest).length - 1 := by
        simp
      by_cases hdelta : next.timestamp - current.timestamp ≤ 0
      · by_cases hemit : tsLt lastTs current.timestamp = true
        · rw [densifyLoop_cons_nodelta_emit hemit hdelta]
          have h1 := ih current (some current.timestamp)
          have hmul : segments * ((current :: next :: rest).length - 1) =
              segments * ((next :: rest).length - 1) + segments := by
            rw [← hlen2, Nat.mul_succ]
          simp only [List.length_cons] at h1 ⊢
          simp only [List.length_cons] at hmul
          omega
        · rw [densifyLoop_cons_nodelta_skip (Bool.not_eq_true _ ▸ hemit) hdelta]
          have h1 := ih current lastTs
          have h3 : segments * ((next :: rest).length - 1) ≤
              segments * ((current :: next :: rest).length - 1) := by
            apply Nat.mul_le_mul_left
            simp
          omega
      · by_cases hemit : tsLt lastTs current.timestamp = true
        · rw [densifyLoop_cons_delta_emit hemit hdelta]
          have h1 := ih current
            (interpGo segments prev.price current.price next.price (rest.headD next).price
              current.timestamp current.blockNumberHex (next.timestamp - current.timestamp)
              (pairGuardMin current next) (pairGuardMax current next)
              (segments - 1) 1 (some current.timestamp)).2
          have h2 := interpGo_length segments prev.price current.price next.price
            (rest.headD next).price current.timestamp current.blockNumberHex
            (next.timestamp - current.timestamp) (pairGuardMin current next)
            (pairGuardMax current next) (segments - 1) 1 (some current.timestamp)
          have hmul : segments * ((current :: next :: rest).length - 1) =
              segments * ((next :: rest).length - 1) + segments := by
            rw [← hlen2, Nat.mul_succ]
          simp only [List.length_cons, List.length_append] at h1 h2 ⊢
          simp only [List.length_cons] at hmul
          omega
        · rw [densifyLoop_cons_delta_skip (Bool.not_eq_true _ ▸ hemit) hdelta]
          have h1 := ih current
            (interpGo segments prev.price current.price next.price (rest.headD next).price
              current.timestamp current.blockNumberHex (next.timestamp - current.timestamp)
              (pairGuardMin current next) (pairGuardMax current next)
              (segments - 1) 1 lastTs).2
          have h2 := interpGo_length segments prev.price current.price next.price
            (rest.headD next).price current.timestamp current.blockNumberHex
            (next.timestamp - current.timestamp) (pairGuardMin current next)
            (pairGuardMax current next) (segments - 1) 1 lastTs
          have hmul : segments * ((current :: next :: rest).length - 1) =
              segments * ((next :: rest).length - 1) + segments := by
            rw [← hlen2, Nat.mul_succ]
          simp only [List.length_cons, List.length_append] at h1 h2 ⊢
          simp only [List.length_cons] at hmul
          omega

/-- Characterization of the active densification branch. -/
theorem densifyPoints_spec_active {range : QiHistoryRange} {segments : ℕ}
    {pts : List QiPoint} (hseg : rangeDensifySegments range = some segments)
    (hcond : ¬(segments ≤ 1 ∨ pts.length < 2)) :
    densifyPoints range pts =
      if densifyLoop segments (pts.headD default) none pts = [] ∨
          ((densifyLoop segments (pts.headD default) none pts).getLastD default).timestamp <
            (pts.getLastD default).timestamp
      then densifyLoop segments (pts.headD default) none pts ++ [pts.getLastD default]
      else densifyLoop segments (pts.headD default) none pts := by
  unfold densifyPoints
  rw [hseg]
  simp only [if_neg hcond]

/-- Densification preserves strict chronological ascent. -/
theorem densifyPoints_strict {range : QiHistoryRange} {pts : List QiPoint}
    (h : StrictTs pts) : StrictTs (densifyPoints range pts) := by
  rcases hseg : rangeDensifySegments range with _ | segments
  · unfold densifyPoints
    rw [hseg]
    exact h
  · by_cases hcond : segments ≤ 1 ∨ pts.length < 2
    · unfold densifyPoints
      rw [hseg]
      simpa [hcond] using h
    · rw [densifyPoints_spec_active hseg hcond]
      obtain ⟨hA, hB⟩ := densifyLoop_spec segments pts (pts.headD default) none
      set result := densifyLoop segments (pts.headD default) none pts with hres
      by_cases happ : result = [] ∨
          ((result.getLastD default).timestamp < (pts.getLastD default).timestamp)
      · rw [if_pos happ]
        rcases eq_or_ne result [] with hre | hrne
        · rw [hre]
          exact List.pairwise_singleton _ _
        · have hlastlt : (result.getLastD default).timestamp <
              (pts.getLastD default).timestamp := by
            rcases happ with hc | hc
            · exact absurd hc hrne
            · exact hc
          refine List.pairwise_append.mpr ⟨hB, List.pairwise_singleton _ _, ?_⟩
          intro x hx y hy
          rcases List.mem_singleton.mp hy with rfl
          have hxle : x.timestamp ≤ (result.getLastD default).timestamp :=
            hB.ts_le_getLastD default x hx
          omega
      · rw [if_neg happ]
        exact hB

/-- Length bound of densification: at most `segments` points per input
pair plus the final point. -/
theorem densifyPoints_length {range : QiHistoryRange} {segments : ℕ}
    (hseg : rangeDensifySegments range = some segments) (hseg1 : 1 ≤ segments)
    (pts : List QiPoint) :
    (densifyPoints range pts).length ≤ segments * (pts.length - 1) + 1 := by
  by_cases hcond : segments ≤ 1 ∨ pts.length < 2
  · unfold densifyPoints
    rw [hseg]
    simp only [if_pos hcond]
    rcases hcond with hc | hc
    · have hs1 : segments = 1 := by omega
      subst hs1
      omega
    · omega
  · rw [densifyPoints_spec_active hseg hcond]
    have h1 := densifyLoop_length hseg1 pts (pts.headD default) none
    by_cases happ : densifyLoop segments (pts.headD default) none pts = [] ∨
        ((densifyLoop segments (pts.headD default) none pts).getLastD default).timestamp <
          (pts.getLastD default).timestamp
    · rw [if_pos happ]
      rw [List.length_append, List.length_singleton]
      omega
    · rw [if_neg happ]
      omega

/-! ### Pipeline decomposition -/

/-- The pipeline either returns the empty series (no snapshots) or the
composition of its stages. -/
theorem fetchQiPriceHistoryFromRpc_eq (range : QiHistoryRange) (snaps : List Snapshot)
    (u : ℚ) :
    fetchQiPriceHistoryFromRpc range snaps u = [] ∨
    fetchQiPriceHistoryFromRpc range snaps u =
      resamplePoints
        (normalizeSamples (rangeSamples range) * ((rangeDensifySegments range).getD 1))
        (densifyPoints range
          (resamplePoints (normalizeSamples (rangeSamples range))
            (smoothPoints range
              (bucketPoints (rangeBucketMs range)
                (sortByTimestamp (convertSnapshots snaps u)))))) := by
  unfold fetchQiPriceHistoryFromRpc
  by_cases h : snaps.isEmpty
  · rw [if_pos h]
    exact Or.inl rfl
  · rw [if_neg h]
    exact Or.inr rfl

/-! ### Claim C2: strict chronological ascent of the output -/

/-- Claim C2: for every range token, every snapshot sequence and every USD
reference price, the series returned by `fetchQiPriceHistoryFromRpc` is
strictly ascending by `timestampMs` — in particular it contains no
duplicate timestamps. The converter deduplicates timestamps and sorts,
and every later stage preserves strict ascent. -/
theorem claim2_output_strictly_ascending (range : QiHistoryRange)
    (snaps : List Snapshot) (u : ℚ) :
    StrictTs (fetchQiPriceHistoryFromRpc range snaps u) := by
  rcases fetchQiPriceHistoryFromRpc_eq range snaps u with h | h
  · rw [h]
    exact List.Pairwise.nil
  · rw [h]
    apply resamplePoints_strict
    apply densifyPoints_strict
    apply resamplePoints_strict
    apply smoothPoints_strict
    apply bucketPoints_strict
    exact sorted_convert_strict snaps u

/-! ### Claim C1: the output length respects the range cap -/

/-- Cap argument for ranges with a densify factor. -/
theorem pipeline_cap_densify (range : QiHistoryRange) {segments : ℕ}
    (hseg : rangeDensifySegments range = some segments) (hseg2 : 2 ≤ segments)
    (hcap : 3 ≤ normalizeSamples (rangeSamples range) * segments)
    (snaps : List Snapshot) (u : ℚ) :
    (fetchQiPriceHistoryFromRpc range snaps u).length ≤
      normalizeSamples (rangeSamples range) * segments := by
  rcases fetchQiPriceHistoryFromRpc_eq range snaps u with h | h
  · rw [h]
    simp
  · rw [h, hseg]
    set S := normalizeSamples (rangeSamples range) with hS
    have hS2 : 2 ≤ S := by
      rw [hS]
      unfold normalizeSamples
      omega
    set base := smoothPoints range
      (bucketPoints (rangeBucketMs range) (sortByTimestamp (convertSnapshots snaps u)))
      with hbase
    have hm : (resamplePoints S base).length ≤ S + 1 :=
      resamplePoints_length_le (by omega) base
    have hd : (densifyPoints range (resamplePoints S base)).length ≤
        segments * ((resamplePoints S base).length - 1) + 1 :=
      densifyPoints_length hseg (by omega) _
    have hd2 : (densifyPoints range (resamplePoints S base)).length ≤ S * segments + 1 := by
      have h1 : (resamplePoints S base).length - 1 ≤ S := by omega
      have h2 : segments * ((resamplePoints S base).length - 1) ≤ segments * S :=
        Nat.mul_le_mul_left segments h1
      have h3 : segments * S = S * segments := Nat.mul_comm segments S
      omega
    have := resamplePoints_length_tight hcap hd2
    simpa using this

/-- Cap argument for the range without a densify stage. -/
theorem pipeline_cap_nodensify (range : QiHistoryRange)
    (hseg : rangeDensifySegments range = none)
    (hcap : 3 ≤ normalizeSamples (rangeSamples range))
    (snaps : List Snapshot) (u : ℚ) :
    (fetchQiPriceHistoryFromRpc range snaps u).length ≤
      normalizeSamples (rangeSamples range) := by
  rcases fetchQiPriceHistoryFromRpc_eq range snaps u with h | h
  · rw [h]
    simp
  · rw [h, hseg]
    set S := normalizeSamples (rangeSamples range) with hS
    set base := smoothPoints range
      (bucketPoints (rangeBucketMs range) (sortByTimestamp (convertSnapshots snaps u)))
      with hbase
    have hm : (resamplePoints S base).length ≤ S + 1 :=
      resamplePoints_length_le (by omega) base
    have hdens : densifyPoints range (resamplePoints S base) = resamplePoints S base := by
      unfold densifyPoints
      rw [hseg]
    rw [hdens]
    have := resamplePoints_length_tight hcap (by simpa using hm)
    simpa using this

/-- Claim C1: for every range token, snapshot sequence and USD reference
price, the length of the series returned by `fetchQiPriceHistoryFromRpc`
never exceeds the range's configured cap: the normalized sample count
times the densify factor (which is 1 for the non-densified `6m` range). -/
theorem claim1_output_length_le_cap (range : QiHistoryRange) (snaps : List Snapshot)
    (u : ℚ) :
    (fetchQiPriceHistoryFromRpc range snaps u).length ≤ rangeOutputCap range := by
  cases range with
  | h1 =>
    have := pipeline_cap_densify .h1 rfl (by norm_num)
      (by norm_num [normalizeSamples, rangeSamples]) snaps u
    simpa [rangeOutputCap, rangeDensifySegments] using this
  | h24 =>
    have := pipeline_cap_densify .h24 rfl (by norm_num)
      (by norm_num [normalizeSamples, rangeSamples]) snaps u
    simpa [rangeOutputCap, rangeDensifySegments] using this
  | d7 =>
    have := pipeline_cap_densify .d7 rfl (by norm_num)
      (by norm_num [normalizeSamples, rangeSamples]) snaps u
    simpa [rangeOutputCap, rangeDensifySegments] using this
  | d30 =>
    have := pipeline_cap_densify .d30 rfl (by norm_num)
      (by norm_num [normalizeSamples, rangeSamples]) snaps u
    simpa [rangeOutputCap, rangeDensifySegments] using this
  | m6 =>
    have := pipeline_cap_nodensify .m6 rfl
      (by norm_num [normalizeSamples, rangeSamples]) snaps u
    simpa [rangeOutputCap, rangeDensifySegments] using this

/-- Claim C3, amended. With a positive USD reference price every price is
positive through the converter, sort, bucketing, smoothing and decimation
stages — so for the `6m` range, which has no densify stage, the full
pipeline output is positive. (The densify stage's guard-band clamp can
produce non-positive prices; see the counterexample.) -/
theorem claim3_amended (range : QiHistoryRange) (snaps : List Snapshot) (u : ℚ)
    (hu : 0 < u) :
    (∀ q ∈ resamplePoints (normalizeSamples (rangeSamples range))
        (smoothPoints range (bucketPoints (rangeBucketMs range)
          (sortByTimestamp (convertSnapshots snaps u)))), 0 < q.price) ∧
    (∀ q ∈ fetchQiPriceHistoryFromRpc QiHistoryRange.m6 snaps u, 0 < q.price) := by
  have hsortedpos : ∀ (rg : QiHistoryRange) q,
      q ∈ resamplePoints (normalizeSamples (rangeSamples rg))
        (smoothPoints rg (bucketPoints (rangeBucketMs rg)
          (sortByTimestamp (convertSnapshots snaps u)))) → 0 < q.price := by
    intro rg q hq
    have h1 := resamplePoints_mem q hq
    refine smoothPoints_price_pos ?_ q h1
    intro p hp
    refine bucketPoints_price_pos ?_ p hp
    intro x hx
    have hx2 : x ∈ convertSnapshots snaps u :=
      (sortByTimestamp_perm (convertSnapshots snaps u)).subset hx
    exact convertLoop_price_pos hu snaps [] x hx2
  refine ⟨fun q hq => hsortedpos range q hq, ?_⟩
  rcases fetchQiPriceHistoryFromRpc_eq .m6 snaps u with h | h
  · rw [h]
    intro q hq
    cases hq
  · rw [h]
    intro q hq
    have h1 := resamplePoints_mem q hq
    have hdens : densifyPoints QiHistoryRange.m6
        (resamplePoints (normalizeSamples (rangeSamples QiHistoryRange.m6))
          (smoothPoints QiHistoryRange.m6 (bucketPoints (rangeBucketMs QiHistoryRange.m6)
            (sortByTimestamp (convertSnapshots snaps u))))) =
        resamplePoints (normalizeSamples (rangeSamples QiHistoryRange.m6))
          (smoothPoints QiHistoryRange.m6 (bucketPoints (rangeBucketMs QiHistoryRange.m6)
            (sortByTimestamp (convertSnapshots snaps u)))) := rfl
    rw [hdens] at h1
    exact hsortedpos .m6 q h1

/-- Witness for `claim3_amended` at a concrete positive reference price. -/
theorem claim3_amended_witness :
    (0 : ℚ) < 1 ∧
    ((∀ q ∈ resamplePoints (normalizeSamples (rangeSamples QiHistoryRange.d30))
        (smoothPoints QiHistoryRange.d30 (bucketPoints (rangeBucketMs QiHistoryRange.d30)
          (sortByTimestamp (convertSnapshots guardBandSnaps 1)))), 0 < q.price) ∧
     (∀ q ∈ fetchQiPriceHistoryFromRpc QiHistoryRange.m6 guardBandSnaps 1, 0 < q.price)) :=
  ⟨by norm_num, claim3_amended QiHistoryRange.d30 guardBandSnaps 1 (by norm_num)⟩

/-! ### Bucketing characterization (claim C7) -/

theorem bucketAbsorb_key (b : BucketState) :
    ∀ l : List QiPoint, (bucketAbsorb b l).key = b.key := by
  intro l
  induction l generalizing b with
  | nil => rfl
  | cons p rest ih => exact ih (addToBucket b p)

theorem bucketAbsorb_count (b : BucketState) :
    ∀ l : List QiPoint, (bucketAbsorb b l).count = b.count + l.length := by
  intro l
  induction l generalizing b with
  | nil => simp [bucketAbsorb]
  | cons p rest ih =>
    have h1 := ih (addToBucket b p)
    simp only [bucketAbsorb, List.foldl_cons] at h1 ⊢
    rw [h1]
    simp [addToBucket]
    omega

theorem bucketAbsorb_sum (b : BucketState) :
    ∀ l : List QiPoint, (bucketAbsorb b l).sum = b.sum + (l.map (fun p => p.price)).sum := by
  intro l
  induction l generalizing b with
  | nil => simp [bucketAbsorb]
  | cons p rest ih =>
    have h1 := ih (addToBucket b p)
    simp only [bucketAbsorb, List.foldl_cons] at h1 ⊢
    rw [h1]
    simp [addToBucket]
    ring

theorem bucketAbsorb_lastTimestamp (b : BucketState) :
    ∀ l : List QiPoint,
      (bucketAbsorb b l).lastTimestamp = (tsList l).getLastD b.lastTimestamp := by
  intro l
  induction l generalizing b with
  | nil => simp [bucketAbsorb, tsList]
  | cons p rest ih =>
    have h1 := ih (addToBucket b p)
    have h2 : (addToBucket b p).lastTimestamp = p.timestamp := rfl
    show (bucketAbsorb (addToBucket b p) rest).lastTimestamp = _
    rw [h1, h2]
    show (tsList rest).getLastD p.timestamp = (tsList (p :: rest)).getLastD b.lastTimestamp
    rw [tsList, tsList, List.map_cons, List.getLastD_cons]

theorem dropWhile_head_false {pred : QiPoint → Bool} :
    ∀ {l : List QiPoint} {x : QiPoint} {xs : List QiPoint},
      l.dropWhile pred = x :: xs → pred x = false := by
  intro l
  induction l with
  | nil => intro x xs h; simp [List.dropWhile] at h
  | cons a r ih =>
    intro x xs h
    by_cases hp : pred a
    · rw [List.dropWhile_cons_of_pos hp] at h
      exact ih h
    · rw [List.dropWhile_cons_of_neg hp] at h
      rcases List.cons.injEq .. ▸ h with ⟨rfl, rfl⟩
      exact Bool.not_eq_true _ ▸ hp

/-- The bucket loop with an open bucket first absorbs the maximal run of
points sharing the open bucket's key, flushes it, and continues fresh on
the remainder. -/
theorem bucketLoop_some_eq (bs : ℤ) :
    ∀ (pts : List QiPoint) (b : BucketState),
      bucketLoop bs (some b) pts =
        flushBucket (some (bucketAbsorb b
          (pts.takeWhile (fun p => bucketKey bs p.timestamp = b.key)))) ++
        bucketLoop bs none
          (pts.dropWhile (fun p => bucketKey bs p.timestamp = b.key)) := by
  intro pts
  induction pts with
  | nil =>
    intro b
    show flushBucket (some b) = flushBucket (some b) ++ ([] : List QiPoint)
    rw [List.append_nil]
  | cons p rest ih =>
    intro b
    by_cases hk : bucketKey bs p.timestamp = b.key
    · have h1 : bucketLoop bs (some b) (p :: rest) =
          bucketLoop bs (some (addToBucket b p)) rest := by
        simp [bucketLoop, hk]
      have htw : (p :: rest).takeWhile (fun q => bucketKey bs q.timestamp = b.key) =
          p :: rest.takeWhile (fun q => bucketKey bs q.timestamp = b.key) := by
        rw [List.takeWhile_cons_of_pos (by simpa using hk)]
      have hdw : (p :: rest).dropWhile (fun q => bucketKey bs q.timestamp = b.key) =
          rest.dropWhile (fun q => bucketKey bs q.timestamp = b.key) := by
        rw [List.dropWhile_cons_of_pos (by simpa using hk)]
      have hkey : (addToBucket b p).key = b.key := rfl
      have h2 := ih (addToBucket b p)
      rw [h1, h2, htw, hdw, hkey]
      have habs : bucketAbsorb b
          (p :: rest.takeWhile (fun q => bucketKey bs q.timestamp = b.key)) =
          bucketAbsorb (addToBucket b p)
            (rest.takeWhile (fun q => bucketKey bs q.timestamp = b.key)) := rfl
      rw [habs]
    · have h1 : bucketLoop bs (some b) (p :: rest) =
          flushBucket (some b) ++ bucketLoop bs (some (newBucket bs p)) rest := by
        simp [bucketLoop, hk]
      have htw : (p :: rest).takeWhile (fun q => bucketKey bs q.timestamp = b.key) = [] := by
        rw [List.takeWhile_cons_of_neg (by simpa using hk)]
      have hdw : (p :: rest).dropWhile (fun q => bucketKey bs q.timestamp = b.key) =
          p :: rest := by
        rw [List.dropWhile_cons_of_neg (by simpa using hk)]
      have h3 : bucketLoop bs none (p :: rest) =
          bucketLoop bs (some (newBucket bs p)) rest := by
        simp [bucketLoop]
      rw [h1, htw, hdw, h3]
      rfl

theorem bucketKey_mono {bs a b : ℤ} (hbs : 0 < bs) (h : a ≤ b) :
    bucketKey bs a ≤ bucketKey bs b := by
  unfold bucketKey
  exact mul_le_mul_of_nonneg_right (Int.ediv_le_ediv hbs h) hbs.le

theorem dedup_const_append {k : ℤ} :
    ∀ (l L : List ℤ), (∀ x ∈ l, x = k) → k ∉ L →
      (k :: (l ++ L)).dedup = k :: L.dedup := by
  intro l
  induction l with
  | nil =>
    intro L _ hkL
    simpa using List.dedup_cons_of_not_mem hkL
  | cons a rest ih =>
    intro L hall hkL
    have ha : a = k := hall a (List.mem_cons_self _ _)
    subst ha
    have hmem : a ∈ a :: (rest ++ L) := List.mem_cons_self _ _
    have h1 : (a :: (a :: rest ++ L)).dedup = (a :: (rest ++ L)).dedup := by
      rw [show a :: rest ++ L = a :: (rest ++ L) from rfl]
      exact List.dedup_cons_of_mem hmem
    rw [h1]
    exact ih L (fun x hx => hall x (List.mem_cons_of_mem _ hx)) hkL

/-- In a sorted series with all keys at least `kp`, every element surviving
`dropWhile (key = kp)` has key strictly above `kp`. -/
theorem sorted_dropWhile_key_gt {bs kp : ℤ} (hbs : 0 < bs) :
    ∀ (l : List QiPoint), SortedTs l → (∀ z ∈ l, kp ≤ bucketKey bs z.timestamp) →
      ∀ y ∈ l.dropWhile (fun q => bucketKey bs q.timestamp = kp),
        kp < bucketKey bs y.timestamp := by
  intro l
  induction l with
  | nil =>
    intro _ _ y hy
    simp [List.dropWhile] at hy
  | cons a r ih =>
    intro hs hall y hy
    have hpair := List.pairwise_cons.mp hs
    by_cases ha : bucketKey bs a.timestamp = kp
    · rw [List.dropWhile_cons_of_pos (by simpa using ha)] at hy
      exact ih hpair.2 (fun z hz => hall z (List.mem_cons_of_mem _ hz)) y hy
    · rw [List.dropWhile_cons_of_neg (by simpa using ha)] at hy
      rcases List.mem_cons.mp hy with rfl | hy2
      · exact lt_of_le_of_ne (hall y (List.mem_cons_self _ _)) (Ne.symm ha)
      · have h1 : kp < bucketKey bs a.timestamp :=
          lt_of_le_of_ne (hall a (List.mem_cons_self _ _)) (Ne.symm ha)
        have h2 : a.timestamp ≤ y.timestamp := hpair.1 y hy2
        exact lt_of_lt_of_le h1 (bucketKey_mono hbs h2)

/-- Core bucketing specification, by strong induction on the series: on a
chronologically sorted input, the bucketed keys are exactly the distinct
input bucket keys in order, and each output price is the arithmetic mean
of the prices falling into its bucket. -/
theorem bucketPoints_run_spec {bs : ℤ} (hbs : 0 < bs) :
    ∀ (n : ℕ) (pts : List QiPoint), pts.length ≤ n → SortedTs pts →
      ((bucketPoints bs pts).map (fun q => bucketKey bs q.timestamp) =
        (pts.map (fun p => bucketKey bs p.timestamp)).dedup) ∧
      (∀ q ∈ bucketPoints bs pts,
        q.price =
          ((pts.filter (fun p => bucketKey bs p.timestamp = bucketKey bs q.timestamp)).map
            (fun p => p.price)).sum /
          (((pts.filter (fun p => bucketKey bs p.timestamp = bucketKey bs q.timestamp)).length
            : ℚ))) := by
  intro n
  induction n with
  | zero =>
    intro pts hlen _
    have hnil : pts = [] := List.length_eq_zero.mp (by omega)
    subst hnil
    constructor
    · simp [bucketPoints, bucketLoop, flushBucket]
    · intro q hq
      simp [bucketPoints, bucketLoop, flushBucket] at hq
  | succ n2 ih =>
    intro pts hlen hsorted
    cases pts with
    | nil =>
      constructor
      · simp [bucketPoints, bucketLoop, flushBucket]
      · intro q hq
        simp [bucketPoints, bucketLoop, flushBucket] at hq
    | cons p r =>
      have hpr := List.pairwise_cons.mp hsorted
      set kp := bucketKey bs p.timestamp with hkp
      set run := r.takeWhile (fun q => bucketKey bs q.timestamp = kp) with hrun
      set rest2 := r.dropWhile (fun q => bucketKey bs q.timestamp = kp) with hrest2
      have hsplit : run ++ rest2 = r := by
        rw [hrun, hrest2]
        exact List.takeWhile_append_dropWhile _ _
      have h0 : bucketPoints bs (p :: r) = bucketLoop bs (some (newBucket bs p)) r := by
        simp [bucketPoints, bucketLoop]
      have hnewkey : (newBucket bs p).key = kp := rfl
      have h1 : bucketLoop bs (some (newBucket bs p)) r =
          flushBucket (some (bucketAbsorb (newBucket bs p) run)) ++
            bucketLoop bs none rest2 := by
        have h2 := bucketLoop_some_eq bs r (newBucket bs p)
        rw [hnewkey] at h2
        exact h2
      have hcount : (bucketAbsorb (newBucket bs p) run).count = 1 + run.length := by
        rw [bucketAbsorb_count]
        rfl
      have hsum : (bucketAbsorb (newBucket bs p) run).sum =
          p.price + (run.map (fun x => x.price)).sum := by
        rw [bucketAbsorb_sum]
        rfl
      have hlastTs : (bucketAbsorb (newBucket bs p) run).lastTimestamp =
          (tsList run).getLastD p.timestamp := by
        rw [bucketAbsorb_lastTimestamp]
        rfl
      have hflush : flushBucket (some (bucketAbsorb (newBucket bs p) run)) =
          [{ timestamp := (tsList run).getLastD p.timestamp
             price := (p.price + (run.map (fun x => x.price)).sum) / ((1 + run.length : ℕ) : ℚ)
             blockNumberHex := (bucketAbsorb (newBucket bs p) run).lastBlock }] := by
        show (if (bucketAbsorb (newBucket bs p) run).count = 0 then ([] : List QiPoint)
          else [{ timestamp := (bucketAbsorb (newBucket bs p) run).lastTimestamp
                  price := (bucketAbsorb (newBucket bs p) run).sum /
                    (((bucketAbsorb (newBucket bs p) run).count : ℕ) : ℚ)
                  blockNumberHex := (bucketAbsorb (newBucket bs p) run).lastBlock }]) = _
        rw [if_neg (by omega)]
        rw [hcount, hsum, hlastTs]
      have hrunkeys : ∀ x ∈ run, bucketKey bs x.timestamp = kp := by
        intro x hx
        have h3 := List.mem_takeWhile_imp (hrun ▸ hx)
        simpa using h3
      have hple : ∀ z ∈ r, p.timestamp ≤ z.timestamp := fun z hz => hpr.1 z hz
      have hrest2sub : List.Sublist rest2 r := hrest2 ▸ List.dropWhile_sublist _
      have hsorted2 : SortedTs rest2 := List.Pairwise.sublist hrest2sub hpr.2
      have hrest2gt : ∀ y ∈ rest2, kp < bucketKey bs y.timestamp := by
        rw [hrest2]
        exact sorted_dropWhile_key_gt hbs r hpr.2
          (fun z hz => hkp ▸ bucketKey_mono hbs (hple z hz))
      have hrest2len : rest2.length ≤ n2 := by
        have h4 := hrest2sub.length_le
        simp only [List.length_cons] at hlen
        omega
      obtain ⟨ihA, ihB⟩ := ih rest2 hrest2len hsorted2
      have hfilter_run : run.filter (fun x => bucketKey bs x.timestamp = kp) = run := by
        apply List.filter_eq_self.mpr
        intro x hx
        simpa using hrunkeys x hx
      have hfilter_rest2 : rest2.filter (fun x => bucketKey bs x.timestamp = kp) = [] := by
        apply List.filter_eq_nil_iff.mpr
        intro x hx
        have h5 := hrest2gt x hx
        simp only [decide_eq_true_eq]
        omega
      have hfilter_head : (p :: r).filter (fun x => bucketKey bs x.timestamp = kp) =
          p :: run := by
        rw [List.filter_cons_of_pos (by simp [hkp]), ← hsplit, List.filter_append,
          hfilter_run, hfilter_rest2, List.append_nil]
      have hq0key : bucketKey bs ((tsList run).getLastD p.timestamp) = kp := by
        have hmem := List.getLastD_mem_cons (tsList run) p.timestamp
        rcases List.mem_cons.mp hmem with heq | hmem2
        · rw [heq]
        · rcases List.mem_map.mp (hrun ▸ hmem2) with ⟨x, hx, hxeq⟩
          rw [← hxeq]
          exact hrunkeys x hx
      refine ⟨?_, ?_⟩
      · rw [h0, h1, hflush]
        rw [List.map_append, List.map_singleton]
        have hrhs : ((p :: r).map (fun x => bucketKey bs x.timestamp)).dedup =
            kp :: ((rest2.map (fun x => bucketKey bs x.timestamp)).dedup) := by
          rw [List.map_cons, ← hsplit, List.map_append, ← hkp]
          apply dedup_const_append
          · intro x hx
            rcases List.mem_map.mp hx with ⟨y, hy, hyeq⟩
            rw [← hyeq]
            exact hrunkeys y hy
          · intro hc
            rcases List.mem_map.mp hc with ⟨y, hy, hyeq⟩
            have h6 := hrest2gt y hy
            omega
        rw [hrhs]
        simp only [List.singleton_append]
        have hbp : bucketLoop bs none rest2 = bucketPoints bs rest2 := rfl
        rw [hbp, ihA, hq0key]
      · intro q hq
        rw [h0, h1, hflush] at hq
        rcases List.mem_append.mp hq with hq2 | hq2
        · rcases List.mem_singleton.mp hq2 with rfl
          simp only
          rw [hq0key, hfilter_head]
          rw [List.map_cons, List.sum_cons, List.length_cons]
          have hc : 1 + run.length = run.length + 1 := by omega
          rw [hc]
        · have hq3 : q ∈ bucketPoints bs rest2 := hq2
          have hqkey : kp < bucketKey bs q.timestamp := by
            have hts := bucketPoints_ts_sublist bs rest2
            have hqts : q.timestamp ∈ tsList rest2 := by
              apply hts.subset
              rw [tsList]
              exact List.mem_map_of_mem _ hq3
            rcases List.mem_map.mp hqts with ⟨x, hx, hxeq⟩
            rw [← hxeq]
            exact hrest2gt x hx
          have hne1 : ¬ (bucketKey bs p.timestamp = bucketKey bs q.timestamp) := by
            rw [← hkp]
            omega
          have hfr : run.filter
              (fun x => bucketKey bs x.timestamp = bucketKey bs q.timestamp) = [] := by
            apply List.filter_eq_nil_iff.mpr
            intro x hx
            have h7 := hrunkeys x hx
            simp only [decide_eq_true_eq]
            omega
          have hfilter_q : (p :: r).filter
              (fun x => bucketKey bs x.timestamp = bucketKey bs q.timestamp) =
              rest2.filter
                (fun x => bucketKey bs x.timestamp = bucketKey bs q.timestamp) := by
            rw [List.filter_cons_of_neg (by simpa using hne1), ← hsplit,
              List.filter_append, hfr, List.nil_append]
          rw [hfilter_q]
          exact ihB q hq3

/-! ### Claim C7: one bucket point per distinct key, with mean price -/

/-- Claim C7: on a chronologically sorted input and positive bucket width,
the bucketing stage emits exactly one point per distinct bucket key
`floor(timestampMs / bucketWidthMs) * bucketWidthMs` (the output keys are
the deduplicated input keys, in order), and each output price is the
arithmetic mean of the prices in its bucket — so two input points in the
same bucket window collapse to exactly one mean-priced output point. -/
theorem claim7_bucket_one_per_key (bs : ℤ) (pts : List QiPoint)
    (hbs : 0 < bs) (hsorted : SortedTs pts) :
    ((bucketPoints bs pts).map (fun q => bucketKey bs q.timestamp) =
      (pts.map (fun p => bucketKey bs p.timestamp)).dedup) ∧
    (∀ q ∈ bucketPoints bs pts,
      q.price =
        ((pts.filter (fun p => bucketKey bs p.timestamp = bucketKey bs q.timestamp)).map
          (fun p => p.price)).sum /
        (((pts.filter (fun p => bucketKey bs p.timestamp = bucketKey bs q.timestamp)).length
          : ℚ))) :=
  bucketPoints_run_spec hbs pts.length pts le_rfl hsorted

/-- Witness for `claim7_bucket_one_per_key`: two points 0 ms and 5 ms into
the same 10 ms bucket. -/
theorem claim7_witness :
    (0 : ℤ) < 10 ∧ SortedTs claim7WitnessPts ∧
    (((bucketPoints 10 claim7WitnessPts).map (fun q => bucketKey 10 q.timestamp) =
        (claim7WitnessPts.map (fun p => bucketKey 10 p.timestamp)).dedup) ∧
      (∀ q ∈ bucketPoints 10 claim7WitnessPts,
        q.price =
          ((claim7WitnessPts.filter
              (fun p => bucketKey 10 p.timestamp = bucketKey 10 q.timestamp)).map
            (fun p => p.price)).sum /
          (((claim7WitnessPts.filter
              (fun p => bucketKey 10 p.timestamp = bucketKey 10 q.timestamp)).length : ℚ)))) :=
  ⟨by norm_num, by simp [SortedTs, claim7WitnessPts],
    claim7_bucket_one_per_key 10 claim7WitnessPts (by norm_num)
      (by simp [SortedTs, claim7WitnessPts])⟩

/-! ### Claim C5: behavior of the search when a probe fails -/

/-- Claim C5, counterexample. The claim states that a failed probe aborts
the search in either phase. On the oracle where height 5 is missing and
block `n` has timestamp `10 n`, searching for the latest block at or
before time 50 from latest block 10 probes 9, 7, 3 (back-off), then the
midpoint 5 fails — and the search continues, probing midpoint 4: the trace
contains a failed probe that is not the last probe. -/
theorem claim5_counterexample :
    probeAfterFailure
      (findBlockAtOrBeforeTimestamp probeFailFetch (some ⟨10, 100⟩) 50 20).2 = true ∧
    (findBlockAtOrBeforeTimestamp probeFailFetch (some ⟨10, 100⟩) 50 20).1 =
      some ⟨4, 40⟩ := by
  constructor
  · decide
  · decide

/-- Claim C5, amended: a failed probe aborts only the exponential back-off
phase — `backoffLoop` returns immediately with no low bound, so the search
stops at the current high bound; in the binary-search phase a failed
midpoint instead narrows the high bound to the midpoint and the search
continues probing. -/
theorem claim5_amended (fetch : ℤ → Option BlockInfo) (targetMs : ℤ) (fuel : ℕ)
    (hi : BlockInfo) (step : ℤ) (lowNum highNum : ℤ) (lowInfo highInfo : BlockInfo)
    (hhi : ¬ hi.number = 0)
    (hfailback : fetch (if step < hi.number then hi.number - step else 0) = none)
    (hgap : 1 < highNum - lowNum)
    (hfailmid : fetch (lowNum + (highNum - lowNum) / 2) = none) :
    backoffLoop fetch targetMs (fuel + 1) hi step =
      (none, hi, [((if step < hi.number then hi.number - step else 0), false)]) ∧
    binaryLoop fetch targetMs (fuel + 1) lowNum highNum lowInfo highInfo =
      ((binaryLoop fetch targetMs fuel lowNum (lowNum + (highNum - lowNum) / 2)
          lowInfo highInfo).1,
        (binaryLoop fetch targetMs fuel lowNum (lowNum + (highNum - lowNum) / 2)
          lowInfo highInfo).2.1,
        ((lowNum + (highNum - lowNum) / 2), false) ::
          (binaryLoop fetch targetMs fuel lowNum (lowNum + (highNum - lowNum) / 2)
            lowInfo highInfo).2.2) := by
  constructor
  · show (if hi.number = 0 then (some hi, hi, []) else _) = _
    rw [if_neg hhi]
    simp only [hfailback]
  · show (if 1 < highNum - lowNum then _ else (lowInfo, highInfo, [])) = _
    rw [if_pos hgap]
    simp only [hfailmid]

/-- Witness for `claim5_amended` on a concrete all-failing oracle. -/
theorem claim5_amended_witness :
    (¬ (⟨10, 100⟩ : BlockInfo).number = 0) ∧
    ((fun _ => none : ℤ → Option BlockInfo)
      (if 1 < (⟨10, 100⟩ : BlockInfo).number then (⟨10, 100⟩ : BlockInfo).number - 1 else 0) =
        none) ∧
    (1 < (10 : ℤ) - 0) ∧
    ((fun _ => none : ℤ → Option BlockInfo) (0 + ((10 : ℤ) - 0) / 2) = none) ∧
    (backoffLoop (fun _ => none) 50 (3 + 1) ⟨10, 100⟩ 1 =
      (none, ⟨10, 100⟩,
        [((if 1 < (⟨10, 100⟩ : BlockInfo).number then (⟨10, 100⟩ : BlockInfo).number - 1 else 0),
          false)]) ∧
    binaryLoop (fun _ => none) 50 (3 + 1) 0 10 ⟨0, 0⟩ ⟨10, 100⟩ =
      ((binaryLoop (fun _ => none) 50 3 0 (0 + ((10 : ℤ) - 0) / 2) ⟨0, 0⟩ ⟨10, 100⟩).1,
        (binaryLoop (fun _ => none) 50 3 0 (0 + ((10 : ℤ) - 0) / 2) ⟨0, 0⟩ ⟨10, 100⟩).2.1,
        ((0 + ((10 : ℤ) - 0) / 2), false) ::
          (binaryLoop (fun _ => none) 50 3 0 (0 + ((10 : ℤ) - 0) / 2) ⟨0, 0⟩ ⟨10, 100⟩).2.2)) :=
  ⟨by decide, rfl, by decide, rfl,
    claim5_amended (fun _ => none) 50 3 ⟨10, 100⟩ 1 0 10 ⟨0, 0⟩ ⟨10, 100⟩
      (by decide) rfl (by decide) rfl⟩

/-! ### Claim C6: output order of a descending sampler request -/

/-- Claim C6, counterexample. The claim states that a descending request
(`startHeight > endHeight`) returns snapshots in descending block-height
order. With `start = 5`, `end = 1`, stride 2, the source collects heights
5, 3, 1 and then reverses them (`if (!forward) snapshots.reverse()`), so
the returned heights are 1, 3, 5 — ascending, not descending. -/
theorem claim6_counterexample :
    ((fetchQiToQuaiSnapshots samplerFetch (fun _ => "0x1") 5 1 (some 2) 10).toOption.map
      (fun l => l.map (fun s => s.blockNumber))) = some [1, 3, 5] ∧
    ¬ ([1, 3, 5] : List ℤ).Pairwise (fun a b => b < a) := by
  constructor
  · decide
  · decide

theorem toStepBigInt_pos (o : Option ℤ) : 0 < toStepBigInt o := by
  rcases o with _ | v
  · norm_num [toStepBigInt]
  · by_cases h0 : v = 0
    · simp [toStepBigInt, h0]
    · by_cases hpos : 0 < v
      · simp [toStepBigInt, h0, hpos]
      · simp only [toStepBigInt, if_neg h0, if_neg hpos]
        omega

theorem genTargets_le {endBlock step : ℤ} (hstep : 0 < step) :
    ∀ (fuel : ℕ) (current : ℤ) (y : ℤ),
      y ∈ genTargets false endBlock step current fuel → y ≤ current := by
  intro fuel
  induction fuel with
  | zero => intro current y hy; simp [genTargets] at hy
  | succ f ih =>
    intro current y hy
    by_cases hc : endBlock ≤ current
    · rw [show genTargets false endBlock step current (f + 1) =
          current :: genTargets false endBlock step (current - step) f by
            simp [genTargets, hc]] at hy
      rcases List.mem_cons.mp hy with rfl | hy2
      · exact le_refl y
      · have := ih (current - step) y hy2
        omega
    · rw [show genTargets false endBlock step current (f + 1) = [] from by
        simp [genTargets, hc]] at hy
      cases hy

theorem genTargets_desc {endBlock step : ℤ} (hstep : 0 < step) :
    ∀ (fuel : ℕ) (current : ℤ),
      (genTargets false endBlock step current fuel).Pairwise (fun a b => b < a) := by
  intro fuel
  induction fuel with
  | zero => intro current; simp [genTargets]
  | succ f ih =>
    intro current
    by_cases hc : endBlock ≤ current
    · rw [show genTargets false endBlock step current (f + 1) =
          current :: genTargets false endBlock step (current - step) f by
            simp [genTargets, hc]]
      refine List.pairwise_cons.mpr ⟨?_, ih (current - step)⟩
      intro y hy
      have := genTargets_le hstep f (current - step) y hy
      omega
    · rw [show genTargets false endBlock step current (f + 1) = [] from by
        simp [genTargets, hc]]
      exact List.Pairwise.nil

theorem filterMap_snapshot_numbers (fetchB : ℤ → Option BlockInfo) (rateAt : ℤ → String)
    (hcons : ∀ h info, fetchB h = some info → info.number = h) :
    ∀ l : List ℤ,
      (l.filterMap (fun blockNumber =>
        (fetchB blockNumber).map (fun blockInfo =>
          ({ blockNumber := blockInfo.number
             blockNumberHex := intToHex0x blockInfo.number
             timestamp := blockInfo.timestampMs
             rate := rateAt blockInfo.number } : Snapshot)))).map
        (fun s => s.blockNumber)
      = l.filter (fun b => (fetchB b).isSome) := by
  intro l
  induction l with
  | nil => rfl
  | cons a rest ih =>
    cases hfa : fetchB a with
    | none => simp [List.filterMap_cons, List.filter_cons, hfa, ih]
    | some info =>
      simp [List.filterMap_cons, List.filter_cons, hfa, ih, hcons a info hfa]

/-- Claim C6, amended. For a descending request (`endBlock < start`, both
heights non-negative, positive `maxSamples`) against a block oracle that
reports the requested height, `fetchQiToQuaiSnapshots` succeeds and — because
of the final `snapshots.reverse()` — returns the snapshots in strictly
ASCENDING block-height order, not the descending order the claim states. -/
theorem claim6_amended (fetchB : ℤ → Option BlockInfo) (rateAt : ℤ → String)
    (start endBlock : ℤ) (blockInterval : Option ℤ) (maxSamples : ℕ)
    (hdesc : endBlock < start) (hend : 0 ≤ endBlock) (hms : maxSamples ≠ 0)
    (hcons : ∀ h info, fetchB h = some info → info.number = h) :
    fetchQiToQuaiSnapshots fetchB rateAt start endBlock blockInterval maxSamples
      = Except.ok
          (fetchQiToQuaiSnapshotsCore fetchB rateAt start endBlock blockInterval maxSamples)
    ∧ ((fetchQiToQuaiSnapshotsCore fetchB rateAt start endBlock blockInterval
          maxSamples).map (fun s => s.blockNumber)).Pairwise (fun a b => a < b) := by
  have h1 : ¬ start < 0 := by omega
  have h2 : ¬ endBlock < 0 := by omega
  constructor
  · simp [fetchQiToQuaiSnapshots, hms, h1, h2]
  · have hforward : decide (start ≤ endBlock) = false := by
      simp only [decide_eq_false_iff_not]
      omega
    simp only [fetchQiToQuaiSnapshotsCore, hforward, Bool.false_eq_true, if_false]
    rw [if_neg (show ¬ start ≤ endBlock by omega)]
    rw [List.map_reverse, List.pairwise_reverse,
      filterMap_snapshot_numbers fetchB rateAt hcons]
    exact List.Pairwise.filter _
      (genTargets_desc (toStepBigInt_pos blockInterval) maxSamples start)

theorem claim6_amended_witness :
    fetchQiToQuaiSnapshots samplerFetch (fun _ => "0x1") 5 1 (some 2) 10
      = Except.ok (fetchQiToQuaiSnapshotsCore samplerFetch (fun _ => "0x1") 5 1 (some 2) 10)
    ∧ ((fetchQiToQuaiSnapshotsCore samplerFetch (fun _ => "0x1") 5 1 (some 2) 10).map
        (fun s => s.blockNumber)).Pairwise (fun a b => a < b) :=
  claim6_amended samplerFetch (fun _ => "0x1") 5 1 (some 2) 10 (by decide) (by decide)
    (by decide)
    (fun h info hinfo => by
      simp only [samplerFetch] at hinfo
      by_cases h0 : 0 ≤ h
      · rw [if_pos h0] at hinfo
        cases hinfo
        rfl
      · rw [if_neg h0] at hinfo
        cases hinfo)

/-! ### Claim C10: cache discipline of `fetchBlockInfo` -/

theorem hexDigitChar_not_ws (d : ℕ) (hd : d < 16) :
    isJsWhitespace (hexDigitChar d) = false := by
  interval_cases d <;> decide

theorem hexDigitChar_toLower (d : ℕ) (hd : d < 16) :
    Char.toLower (hexDigitChar d) = hexDigitChar d := by
  interval_cases d <;> decide

theorem hexDigitValue_hexDigitChar (d : ℕ) (hd : d < 16) :
    hexDigitValue (hexDigitChar d) = some d := by
  interval_cases d <;> decide

theorem hexDigitChar_ne_zero (d : ℕ) (h0 : 0 < d) (hd : d < 16) :
    hexDigitChar d ≠ '0' := by
  interval_cases d <;> decide

theorem mem_natHexCharsAux :
    ∀ (fuel n : ℕ), ∀ c ∈ natHexCharsAux fuel n, ∃ d, d < 16 ∧ c = hexDigitChar d := by
  intro fuel
  induction fuel with
  | zero => intro n c hc; cases hc
  | succ f ih =>
    intro n c hc
    simp only [natHexCharsAux] at hc
    by_cases h16 : n < 16
    · rw [if_pos h16] at hc
      exact ⟨n, h16, List.mem_singleton.mp hc⟩
    · rw [if_neg h16] at hc
      rcases List.mem_append.mp hc with h | h
      · exact ih (n / 16) c h
      · exact ⟨n % 16, Nat.mod_lt _ (by norm_num), List.mem_singleton.mp h⟩

theorem natHexCharsAux_ne_nil (fuel n : ℕ) : natHexCharsAux (fuel + 1) n ≠ [] := by
  simp only [natHexCharsAux]
  by_cases h16 : n < 16
  · rw [if_pos h16]; exact (List.cons_ne_nil _ _)
  · rw [if_neg h16]
    intro h
    exact absurd (List.append_eq_nil.mp h).2 (List.cons_ne_nil _ _)

theorem dropWhile_eq_self_of_forall (p : Char → Bool) (cs : List Char)
    (h : ∀ c ∈ cs, p c = false) : cs.dropWhile p = cs := by
  cases cs with
  | nil => rfl
  | cons c rest =>
    rw [List.dropWhile_cons, h c (List.mem_cons_self c rest)]
    simp

theorem jsTrimChars_eq_self (cs : List Char)
    (h : ∀ c ∈ cs, isJsWhitespace c = false) : jsTrimChars cs = cs := by
  unfold jsTrimChars
  rw [dropWhile_eq_self_of_forall _ _ h,
    dropWhile_eq_self_of_forall _ _ (fun c hc => h c (List.mem_reverse.mp hc)),
    List.reverse_reverse]

theorem map_toLower_eq_self (cs : List Char)
    (h : ∀ c ∈ cs, Char.toLower c = c) : cs.map Char.toLower = cs := by
  induction cs with
  | nil => rfl
  | cons c rest ih =>
    rw [List.map_cons, h c (List.mem_cons_self c rest),
      ih (fun x hx => h x (List.mem_cons_of_mem c hx))]

theorem digitsToNat_append (dv : Char → Option ℕ) (b : ℕ) :
    ∀ (l1 l2 : List Char) (acc : ℕ),
      digitsToNat dv b (l1 ++ l2) acc
        = (digitsToNat dv b l1 acc).bind (fun a => digitsToNat dv b l2 a) := by
  intro l1
  induction l1 with
  | nil => intro l2 acc; rfl
  | cons c rest ih =>
    intro l2 acc
    simp only [List.cons_append, digitsToNat]
    cases dv c with
    | none => rfl
    | some d => exact ih l2 (acc * b + d)

theorem digitsToNat_natHexCharsAux :
    ∀ (fuel m acc : ℕ), m < 16 ^ fuel →
      digitsToNat hexDigitValue 16 (natHexCharsAux fuel m) acc
        = some (acc * 16 ^ (natHexCharsAux fuel m).length + m) := by
  intro fuel
  induction fuel with
  | zero =>
    intro m acc hm
    have hm0 : m = 0 := by simpa using Nat.lt_one_iff.mp (by simpa using hm)
    subst hm0
    simp [natHexCharsAux, digitsToNat]
  | succ f ih =>
    intro m acc hm
    by_cases h16 : m < 16
    · rw [show natHexCharsAux (f + 1) m = [hexDigitChar m] from by
        simp [natHexCharsAux, h16]]
      simp only [digitsToNat, hexDigitValue_hexDigitChar m h16, List.length_cons,
        List.length_nil]
      norm_num
    · rw [show natHexCharsAux (f + 1) m
          = natHexCharsAux f (m / 16) ++ [hexDigitChar (m % 16)] from by
        simp [natHexCharsAux, h16]]
      have hdiv : m / 16 < 16 ^ f := by
        rw [Nat.div_lt_iff_lt_mul (by norm_num : 0 < 16)]
        calc m < 16 ^ (f + 1) := hm
          _ = 16 ^ f * 16 := by ring
      rw [digitsToNat_append, ih (m / 16) acc hdiv]
      simp only [Option.bind_some, digitsToNat,
        hexDigitValue_hexDigitChar (m % 16) (Nat.mod_lt _ (by norm_num))]
      have hlen : (natHexCharsAux f (m / 16) ++ [hexDigitChar (m % 16)]).length
          = (natHexCharsAux f (m / 16)).length + 1 := by simp
      rw [hlen]
      simp only [Option.some_bind]
      refine congrArg some ?_
      have hmod := Nat.div_add_mod m 16
      set k := (natHexCharsAux f (m / 16)).length with hk
      calc (acc * 16 ^ k + m / 16) * 16 + m % 16
          = acc * (16 ^ k * 16) + (16 * (m / 16) + m % 16) := by ring
        _ = acc * 16 ^ (k + 1) + m := by rw [hmod, pow_succ]

theorem parse_natHexChars (n : ℕ) :
    parseAllDigits hexDigitValue 16 (natHexChars n) = some n := by
  unfold parseAllDigits natHexChars
  have hne := natHexCharsAux_ne_nil n n
  have hemp : (natHexCharsAux (n + 1) n).isEmpty = false := by
    cases hcs : natHexCharsAux (n + 1) n with
    | nil => exact absurd hcs hne
    | cons a t => rfl
  rw [hemp]
  have hlt : n < 16 ^ (n + 1) := by
    calc n < 2 ^ n := Nat.lt_two_pow n
      _ ≤ 16 ^ n := Nat.pow_le_pow_left (by norm_num) n
      _ ≤ 16 ^ (n + 1) := Nat.pow_le_pow_right (by norm_num) (Nat.le_succ n)
  rw [if_neg (by simp)]
  rw [digitsToNat_natHexCharsAux (n + 1) n 0 hlt]
  simp

theorem natToHex0x_data (n : ℕ) : (natToHex0x n).data = '0' :: 'x' :: natHexChars n := rfl

theorem jsTrim_natToHex0x (n : ℕ) :
    jsTrimChars ('0' :: 'x' :: natHexChars n) = '0' :: 'x' :: natHexChars n := by
  refine jsTrimChars_eq_self _ ?_
  intro c hc
  rcases List.mem_cons.mp hc with rfl | hc
  · decide
  rcases List.mem_cons.mp hc with rfl | hc
  · decide
  obtain ⟨d, hd, rfl⟩ := mem_natHexCharsAux (n + 1) n c hc
  exact hexDigitChar_not_ws d hd

theorem jsBigIntOfString_natToHex0x (n : ℕ) :
    jsBigIntOfString (natToHex0x n) = some (n : ℤ) := by
  have h : jsTrimChars (natToHex0x n).data = '0' :: 'x' :: natHexChars n := by
    rw [natToHex0x_data]; exact jsTrim_natToHex0x n
  simp only [jsBigIntOfString, h]
  rw [parse_natHexChars]
  rfl

theorem natHexCharsAux_head_pos :
    ∀ (fuel n : ℕ), 0 < n → n < 16 ^ fuel →
      ∃ d, 0 < d ∧ d < 16 ∧ (natHexCharsAux fuel n).head? = some (hexDigitChar d) := by
  intro fuel
  induction fuel with
  | zero => intro n hn hlt; simp at hlt; omega
  | succ f ih =>
    intro n hn hlt
    by_cases h16 : n < 16
    · exact ⟨n, hn, h16, by simp [natHexCharsAux, h16]⟩
    · have hdivpos : 0 < n / 16 := Nat.div_pos (by omega) (by norm_num)
      have hdivlt : n / 16 < 16 ^ f := by
        rw [Nat.div_lt_iff_lt_mul (by norm_num : 0 < 16)]
        calc n < 16 ^ (f + 1) := hlt
          _ = 16 ^ f * 16 := by ring
      obtain ⟨d, hd0, hd16, hhead⟩ := ih (n / 16) hdivpos hdivlt
      refine ⟨d, hd0, hd16, ?_⟩
      rw [show natHexCharsAux (f + 1) n
          = natHexCharsAux f (n / 16) ++ [hexDigitChar (n % 16)] from by
        simp [natHexCharsAux, h16]]
      cases hA : natHexCharsAux f (n / 16) with
      | nil => rw [hA] at hhead; cases hhead
      | cons a t =>
        rw [hA] at hhead
        simpa using hhead

theorem natHexChars_zero : natHexChars 0 = ['0'] := by decide

/-- A `0x`-prefixed string is never one of the five symbolic tags. -/
theorem hex0x_not_tag (cs : List Char) : String.mk ('0' :: 'x' :: cs) ∉ blockTagList := by
  intro h
  have h2 : ∀ t ∈ blockTagList, t.data.head? ≠ some '0' := by decide
  exact h2 _ h rfl

theorem jsToLower_natToHex0x (n : ℕ) : jsToLower (natToHex0x n) = natToHex0x n := by
  unfold jsToLower
  rw [natToHex0x_data]
  simp only [List.map_cons]
  rw [show Char.toLower '0' = '0' from by decide, show Char.toLower 'x' = 'x' from by decide,
    map_toLower_eq_self (natHexChars n) (fun c hc => by
      obtain ⟨d, hd, rfl⟩ := mem_natHexCharsAux (n + 1) n c hc
      exact hexDigitChar_toLower d hd)]
  rfl

theorem lt_sixteen_pow_succ (n : ℕ) : n < 16 ^ (n + 1) := by
  calc n < 2 ^ n := Nat.lt_two_pow n
    _ ≤ 16 ^ n := Nat.pow_le_pow_left (by norm_num) n
    _ ≤ 16 ^ (n + 1) := Nat.pow_le_pow_right (by norm_num) (Nat.le_succ n)

/-- The canonical hex rendering of a height normalizes to itself: it is the
fixed point of `normalizeBlockParam` on already-canonical keys. -/
theorem normalizeScalar_natToHex0x (n : ℕ) :
    normalizeScalar (.str (natToHex0x n)) = .ok (natToHex0x n) := by
  by_cases hn : n = 0
  · subst hn; decide
  · have hpos : 0 < n := Nat.pos_of_ne_zero hn
    obtain ⟨d, hd0, hd16, hhead⟩ :=
      natHexCharsAux_head_pos (n + 1) n hpos (lt_sixteen_pow_succ n)
    have hhead2 : (natHexChars n).head? = some (hexDigitChar d) := hhead
    obtain ⟨tail, htail⟩ : ∃ t, natHexChars n = hexDigitChar d :: t := by
      cases hcs : natHexChars n with
      | nil =>
        rw [hcs] at hhead2
        cases hhead2
      | cons a t =>
        rw [hcs] at hhead2
        simp only [List.head?_cons, Option.some.injEq] at hhead2
        exact ⟨t, by rw [hhead2]⟩
    simp only [normalizeScalar]
    have htrim : jsTrimChars (natToHex0x n).data = '0' :: 'x' :: natHexChars n := by
      rw [natToHex0x_data]; exact jsTrim_natToHex0x n
    rw [htrim, if_neg (by simp)]
    rw [jsToLower_natToHex0x]
    rw [if_neg (show natToHex0x n ∉ blockTagList from hex0x_not_tag (natHexChars n))]
    rw [if_pos (show isHex0xChars (natToHex0x n).data = true from rfl)]
    rw [show (natToHex0x n).data.drop 2 = natHexChars n from rfl, htail]
    have hdw : List.dropWhile (fun c => decide (c = '0')) (hexDigitChar d :: tail)
        = hexDigitChar d :: tail := by
      rw [List.dropWhile_cons,
        if_neg (by simp only [decide_eq_true_eq]; exact hexDigitChar_ne_zero d hd0 hd16)]
    rw [hdw]
    rw [if_neg (by simp)]
    exact congrArg Except.ok
      (by rw [show natToHex0x n = String.mk ('0' :: 'x' :: natHexChars n) from rfl, htail])

/-- The block info returned by `fetchViaRpc` (and any error it raises) does
not depend on the cache it threads: the cache is write-only in that path. -/
theorem fetchViaRpc_map_fst (oracle : String → Except String (Option RpcHeader))
    (c c' : BlockCache) (param : String) :
    Except.map Prod.fst (fetchViaRpc oracle c param)
      = Except.map Prod.fst (fetchViaRpc oracle c' param) := by
  unfold fetchViaRpc
  cases oracle param with
  | error e => rfl
  | ok ohdr =>
    cases ohdr with
    | none => rfl
    | some hdr =>
      dsimp only
      by_cases hts : hdr.timestamp = "" ∨ hdr.number = ""
      · rw [if_pos hts, if_pos hts]; rfl
      · rw [if_neg hts, if_neg hts]
        cases jsBigIntOfString hdr.number with
        | none => rfl
        | some number =>
          cases normalizeScalar (.str hdr.number) with
          | error e => rfl
          | ok numberKey => rfl

/-- Claim C10. `fetchBlockInfo` consults its cache only for `0x`-prefixed
normalized parameters: (1) for each of the five symbolic tags the returned
block info (or error) is the same for every cache content — it is never
served from the cache; and (2) when the normalized parameter is not served
from the cache and the RPC answers with a canonically rendered header for
height `n`, the fetched info is stored both under the decimal-string key
`intDecString info.number` and under the hex key `natToHex0x n`. -/
theorem claim10_cache_discipline :
    (∀ (oracle : String → Except String (Option RpcHeader)) (c c' : BlockCache)
        (tag : String), tag ∈ blockTagList →
        Except.map Prod.fst (fetchBlockInfoM oracle c (.str tag))
          = Except.map Prod.fst (fetchBlockInfoM oracle c' (.str tag)))
    ∧ (∀ (oracle : String → Except String (Option RpcHeader)) (c : BlockCache)
        (b : BlockRef) (hdr : RpcHeader) (n : ℕ) (param : String)
        (info : BlockInfo) (c2 : BlockCache),
        normalizeBlockParam b = .ok param →
        (isHex0xString param = true → cacheLookup c param = none) →
        oracle param = .ok (some hdr) →
        hdr.number = natToHex0x n →
        fetchBlockInfoM oracle c b = .ok (some info, c2) →
        info.number = (n : ℤ)
          ∧ cacheLookup c2 (intDecString info.number) = some info
          ∧ cacheLookup c2 (natToHex0x n) = some info) := by
  constructor
  · intro oracle c c' tag htag
    have htags : ∀ t ∈ blockTagList,
        normalizeBlockParam (.str t) = .ok t ∧ isHex0xString t = false := by decide
    obtain ⟨hnorm, hhex⟩ := htags tag htag
    simp only [fetchBlockInfoM, hnorm, hhex]
    exact fetchViaRpc_map_fst oracle c c' tag
  · intro oracle c b hdr n param info c2 hparam hmiss horacle hhdr hsucc
    simp only [fetchBlockInfoM, hparam] at hsucc
    have hfetch : fetchViaRpc oracle c param = .ok (some info, c2) := by
      by_cases hhex : isHex0xString param = true
      · rw [if_pos hhex, hmiss hhex] at hsucc
        exact hsucc
      · rw [if_neg hhex] at hsucc
        exact hsucc
    unfold fetchViaRpc at hfetch
    rw [horacle] at hfetch
    dsimp only at hfetch
    have hnum_ne : hdr.number ≠ "" := by
      rw [hhdr]
      intro hcon
      have := congrArg String.data hcon
      rw [natToHex0x_data] at this
      cases this
    by_cases hts : hdr.timestamp = ""
    · rw [if_pos (Or.inl hts)] at hfetch
      simp at hfetch
    · rw [if_neg (not_or.mpr ⟨hts, hnum_ne⟩)] at hfetch
      rw [hhdr, jsBigIntOfString_natToHex0x] at hfetch
      dsimp only at hfetch
      rw [normalizeScalar_natToHex0x] at hfetch
      dsimp only at hfetch
      rw [if_pos (show isHex0xString (natToHex0x n) = true from rfl)] at hfetch
      simp only [Except.ok.injEq, Prod.mk.injEq, Option.some.injEq] at hfetch
      obtain ⟨hinfo, hcache⟩ := hfetch
      refine ⟨?_, ?_, ?_⟩
      · rw [← hinfo]
      · rw [← hcache, ← hinfo]
        simp [cacheSet, cacheLookup]
      · rw [← hcache]
        by_cases hdk : intDecString ((n : ℕ) : ℤ) = natToHex0x n <;>
          simp [cacheSet, cacheLookup, hdk, ← hinfo]

theorem claim10_witness :
    (Except.map Prod.fst (fetchBlockInfoM cacheWitnessOracle [] (.str "latest"))
      = Except.map Prod.fst
          (fetchBlockInfoM cacheWitnessOracle
            [("0x5", { number := 5, timestampMs := 0 })] (.str "latest")))
    ∧ (({ number := 42, timestampMs := 16000 } : BlockInfo).number = ((42 : ℕ) : ℤ)
      ∧ cacheLookup
          [("42", { number := 42, timestampMs := 16000 }),
           ("0x2a", { number := 42, timestampMs := 16000 })]
          (intDecString ({ number := 42, timestampMs := 16000 } : BlockInfo).number)
        = some { number := 42, timestampMs := 16000 }
      ∧ cacheLookup
          [("42", { number := 42, timestampMs := 16000 }),
           ("0x2a", { number := 42, timestampMs := 16000 })]
          (natToHex0x 42)
        = some { number := 42, timestampMs := 16000 }) :=
  ⟨claim10_cache_discipline.1 cacheWitnessOracle []
      [("0x5", { number := 5, timestampMs := 0 })] "latest" (by decide),
   claim10_cache_discipline.2 cacheWitnessOracle [] (.big 42)
      { number := "0x2a", timestamp := "0x10" } 42 "0x2a"
      { number := 42, timestampMs := 16000 }
      [("42", { number := 42, timestampMs := 16000 }),
       ("0x2a", { number := 42, timestampMs := 16000 })]
      (by decide) (fun _ => rfl) rfl (by decide) (by rfl)⟩
